import Mathlib

/-!
Verification of the Im2col / Col2im sliding-window transforms of
src/caffe2/utils/math_cpu.cc (CPU float specializations), shallowly embedded
over exact rational buffers.  Buffers are modelled as total functions from
pointer offsets to values; float arithmetic is modelled exactly in ℚ (the
transforms only copy and add).  Machine `int` arithmetic is modelled on ℤ,
with the one place where 32-bit representation matters — the
`is_a_ge_zero_and_a_lt_b` unsigned-comparison trick — modelled explicitly
modulo 2^32.
-/

namespace Caffe2

/-- Window descriptor: the thirteen integer parameters shared by the Im2col
and Col2im transforms.  All are C ints; the spec requires the values to be
non-negative, so they are modelled as naturals. -/
structure Desc where
  channels : ℕ
  height : ℕ
  width : ℕ
  kernel_h : ℕ
  kernel_w : ℕ
  dilation_h : ℕ
  dilation_w : ℕ
  pad_t : ℕ
  pad_l : ℕ
  pad_b : ℕ
  pad_r : ℕ
  stride_h : ℕ
  stride_w : ℕ

/-- Effective (dilated) kernel extent along h: dilation_h * (kernel_h - 1) + 1,
computed in ℤ exactly as the C int expression. -/
def dkernelH (d : Desc) : ℤ := (d.dilation_h : ℤ) * ((d.kernel_h : ℤ) - 1) + 1

/-- Effective (dilated) kernel extent along w. -/
def dkernelW (d : Desc) : ℤ := (d.dilation_w : ℤ) * ((d.kernel_w : ℤ) - 1) + 1

/-- Per-axis output size, the C expression
(input + padA + padB - (dilation * (kernel - 1) + 1)) / stride + 1
with C truncating int division (Int.tdiv). -/
def outputSize (input padA padB kernel dilation stride : ℕ) : ℤ :=
  Int.tdiv ((input : ℤ) + padA + padB - ((dilation : ℤ) * ((kernel : ℤ) - 1) + 1)) stride + 1

/-- Spec-form per-axis output size: floor((input + pad_low + pad_high -
effective_kernel) / stride) + 1 with effective_kernel =
dilation * (kernel - 1) + 1.  Written with mathematical floor division
(Int ediv), to be compared against the C expression. -/
def outputSizeSpec (input padA padB kernel dilation stride : ℕ) : ℤ :=
  ((input : ℤ) + padA + padB - ((dilation : ℤ) * ((kernel : ℤ) - 1) + 1)) / stride + 1

/-- output_h as computed at the top of Im2col / Col2im (lines 643-645). -/
def outH (d : Desc) : ℤ := outputSize d.height d.pad_b d.pad_t d.kernel_h d.dilation_h d.stride_h

/-- output_w as computed at the top of Im2col / Col2im (lines 646-648). -/
def outW (d : Desc) : ℤ := outputSize d.width d.pad_l d.pad_r d.kernel_w d.dilation_w d.stride_w

/-- output_h as a loop bound (non-negative under validity). -/
def outHn (d : Desc) : ℕ := (outH d).toNat

/-- output_w as a loop bound (non-negative under validity). -/
def outWn (d : Desc) : ℕ := (outW d).toNat

/-- Valid window descriptor: kernels, strides and dilations at least 1, and
the padded input at least as large as the dilated kernel on each axis (which
is exactly the requirement that the spec's floor-form output size be at
least 1). -/
structure Valid (d : Desc) : Prop where
  kh : 1 ≤ d.kernel_h
  kw : 1 ≤ d.kernel_w
  sh : 1 ≤ d.stride_h
  sw : 1 ≤ d.stride_w
  dh : 1 ≤ d.dilation_h
  dw : 1 ≤ d.dilation_w
  numH : dkernelH d ≤ (d.height : ℤ) + d.pad_b + d.pad_t
  numW : dkernelW d ≤ (d.width : ℤ) + d.pad_l + d.pad_r

/-- The padded extents fit in a 32-bit signed int, as they must for the C
int arithmetic (and in particular the unsigned-comparison bounds test) to be
exact. -/
def Fits (d : Desc) : Prop :=
  (d.height : ℤ) + d.pad_b + d.pad_t < 2 ^ 31 ∧ (d.width : ℤ) + d.pad_l + d.pad_r < 2 ^ 31

/-- A flat float buffer, addressed by pointer offset. -/
abbrev Buf := ℤ → ℚ

/-- Single array store: buf[i] = v. -/
def store (b : Buf) (i : ℤ) (v : ℚ) : Buf := Function.update b i v

/-- memcpy of n consecutive floats from src + sOff to dst + dOff, modelled
elementwise. -/
def memcpyF (dst : Buf) (dOff : ℤ) (src : Buf) (sOff : ℤ) (n : ℕ) : Buf :=
  (List.range n).foldl (fun b (i : ℕ) => store b (dOff + i) (src (sOff + i))) dst

/-- The bounds test of lines 613-623: compare static_cast<unsigned>(a) <
static_cast<unsigned>(b); the casts reduce the 32-bit patterns mod 2^32. -/
def is_a_ge_zero_and_a_lt_b (a b : ℤ) : Bool := decide (a % 2 ^ 32 < b % 2 ^ 32)

/-- Dispatch predicate of the first Im2col / Col2im NCHW fast path
(lines 652-653 and 818-819): no dilation and all paddings zero. -/
def noPadNoDil (d : Desc) : Prop :=
  d.dilation_h = 1 ∧ d.dilation_w = 1 ∧ d.pad_l = 0 ∧ d.pad_r = 0 ∧ d.pad_t = 0 ∧ d.pad_b = 0

/-- Dispatch predicate of the second NCHW fast path (lines 684 and 850):
equal padding left/right and top/bottom. -/
def eqPad (d : Desc) : Prop := d.pad_l = d.pad_r ∧ d.pad_t = d.pad_b

instance (d : Desc) : Decidable (noPadNoDil d) := by unfold noPadNoDil; infer_instance

instance (d : Desc) : Decidable (eqPad d) := by unfold eqPad; infer_instance

/-- Row body of the no-dilation/zero-padding Im2col fast path
(lines 663-678): one output row y for kernel position (kh, kw); a single
memcpy of output_w floats when stride_w == 1, per-element copies otherwise. -/
def im2colFastRow (d : Desc) (im : Buf) (srcOff dstOff : ℤ) (kh kw y : ℕ) (col : Buf) : Buf :=
  let iy := y * d.stride_h + kh
  let ix := kw
  if d.stride_w = 1 then
    memcpyF col (dstOff + (y * outWn d : ℕ)) im (srcOff + (iy * d.width + ix : ℕ)) (outWn d)
  else
    (List.range (outWn d)).foldl
      (fun col x =>
        memcpyF col (dstOff + (y * outWn d + x : ℕ))
          im (srcOff + (iy * d.width + ix + x * d.stride_w : ℕ)) 1) col

/-- Kernel-position body of the fast path (lines 655-679): flattened kernel
index k decoded into channel nip and kernel offsets kh, kw, with the dst and
src base pointers of the C code. -/
def im2colFastK (d : Desc) (im : Buf) (k : ℕ) (col : Buf) : Buf :=
  let nip := k / (d.kernel_h * d.kernel_w)
  let rest := k % (d.kernel_h * d.kernel_w)
  let kh := rest / d.kernel_w
  let kw := rest % d.kernel_w
  let dstOff : ℤ := (nip * (d.kernel_h * d.kernel_w * outHn d * outWn d) +
    kh * (d.kernel_w * outHn d * outWn d) + kw * (outHn d * outWn d) : ℕ)
  let srcOff : ℤ := (nip * (d.height * d.width) : ℕ)
  (List.range (outHn d)).foldl (fun col y => im2colFastRow d im srcOff dstOff kh kw y col) col

/-- Im2col NCHW, fast path for zero padding and no dilation (lines 652-681). -/
def im2colNCHWfast (d : Desc) (im : Buf) (col : Buf) : Buf :=
  (List.range (d.channels * d.kernel_h * d.kernel_w)).foldl
    (fun col k => im2colFastK d im k col) col

/-- Column scan of the equal-padding Im2col fast path (lines 699-707):
n counts the remaining output columns, input_col advances by stride_w;
out-of-range columns emit zero. -/
def im2colPadCols (d : Desc) (im : Buf) (imOff input_row : ℤ) : ℕ → ℤ → List ℚ
  | 0, _ => []
  | n + 1, input_col =>
      (if is_a_ge_zero_and_a_lt_b input_col d.width then
        im (imOff + input_row * d.width + input_col)
      else 0) :: im2colPadCols d im imOff input_row n (input_col + d.stride_w)

/-- Row scan of the equal-padding fast path (lines 693-710): a row outside
the image emits output_w zeros (the negated bounds test of line 694),
otherwise the column scan runs; input_row advances by stride_h. -/
def im2colPadRows (d : Desc) (im : Buf) (imOff : ℤ) (kernel_col : ℕ) : ℕ → ℤ → List ℚ
  | 0, _ => []
  | n + 1, input_row =>
      (if is_a_ge_zero_and_a_lt_b input_row d.height then
        im2colPadCols d im imOff input_row (outWn d) (-(d.pad_l : ℤ) + kernel_col * d.dilation_w)
      else List.replicate (outWn d) 0) ++
        im2colPadRows d im imOff kernel_col n (input_row + d.stride_h)

/-- Values written by the equal-padding fast path (lines 684-715) in write
order.  data_col is a raw cursor in the C code, so the list position is the
flat column-buffer offset.  The C channel loop counts its index down while
data_im advances one channel slice per iteration; pad_h is pad_t and pad_w is
pad_l (lines 686-687). -/
def im2colNCHWpadList (d : Desc) (im : Buf) : List ℚ :=
  (List.range d.channels).flatMap fun channel =>
    (List.range d.kernel_h).flatMap fun kernel_row =>
      (List.range d.kernel_w).flatMap fun kernel_col =>
        im2colPadRows d im ((channel * (d.height * d.width) : ℕ)) kernel_col (outHn d)
          (-(d.pad_t : ℤ) + kernel_row * d.dilation_h)

/-- Sequential cursor writes: buffer offsets 0 .. len-1 receive the list
values, everything else keeps the prior contents. -/
def writeRun (b : Buf) (l : List ℚ) : Buf :=
  fun i => if 0 ≤ i ∧ i < l.length then l.getD i.toNat 0 else b i

/-- Im2col NCHW, fast path for equal padding (lines 684-715). -/
def im2colNCHWpad (d : Desc) (im : Buf) (col : Buf) : Buf :=
  writeRun col (im2colNCHWpadList d im)

/-- Im2col NCHW baseline (lines 717-741); height_col and width_col recompute
the same output-size expressions, and c / kernel_h / kernel_w divides by
kernel_h first exactly as line 729 does. -/
def im2colNCHWbase (d : Desc) (im : Buf) (col : Buf) : Buf :=
  (List.range (d.channels * d.kernel_h * d.kernel_w)).foldl (fun col (c : ℕ) =>
    let w_offset := c % d.kernel_w
    let h_offset := (c / d.kernel_w) % d.kernel_h
    let c_im := c / d.kernel_h / d.kernel_w
    (List.range (outHn d)).foldl (fun col (h : ℕ) =>
      (List.range (outWn d)).foldl (fun col (w : ℕ) =>
        let h_pad : ℤ := (h : ℤ) * d.stride_h - d.pad_t + h_offset * d.dilation_h
        let w_pad : ℤ := (w : ℤ) * d.stride_w - d.pad_l + w_offset * d.dilation_w
        let colIdx : ℕ := (c * outHn d + h) * outWn d + w
        store col (colIdx : ℤ)
          (if 0 ≤ h_pad ∧ h_pad < d.height ∧ 0 ≤ w_pad ∧ w_pad < d.width then
            im ((((c_im * d.height : ℕ) : ℤ) + h_pad) * d.width + w_pad)
          else 0)) col) col) col

/-- Im2col NCHW dispatcher (lines 626-741): first fast path when there is no
dilation and no padding, second fast path for equal padding, baseline
otherwise. -/
def im2colNCHW (d : Desc) (im : Buf) (col : Buf) : Buf :=
  if noPadNoDil d then im2colNCHWfast d im col
  else if eqPad d then im2colNCHWpad d im col
  else im2colNCHWbase d im col

/-- Elementwise accumulate: buf[t] += v. -/
def accum (b : Buf) (t : ℤ) (v : ℚ) : Buf := Function.update b t (b t + v)

/-- Apply a list of (column offset, image offset) accumulation operations in
order: each op adds col[first] into im[second]. -/
def applyAdds (b : Buf) (ops : List (ℤ × ℤ)) (col : Buf) : Buf :=
  ops.foldl (fun b e => accum b e.2 (col e.1)) b

/-- Zero-fill of the first n buffer entries:
Set<float, CPUContext>(n, 0, buf) of lines 814 and 926. -/
def zeroFill (b : Buf) (n : ℕ) : Buf := fun i => if 0 ≤ i ∧ i < n then 0 else b i

/-- Accumulation operations of the Col2im NCHW zero-padding/no-dilation fast
path (lines 816-848) in execution order.  The loop structure and the index
expressions mirror the Im2col fast path with the copy replaced by an add;
when stride_w == 1 the inner loop adds a run of output_w consecutive column
values into consecutive image entries. -/
def col2imFastOps (d : Desc) : List (ℤ × ℤ) :=
  (List.range (d.channels * d.kernel_h * d.kernel_w)).flatMap fun (k : ℕ) =>
    let nip := k / (d.kernel_h * d.kernel_w)
    let rest := k % (d.kernel_h * d.kernel_w)
    let kh := rest / d.kernel_w
    let kw := rest % d.kernel_w
    let dstOff : ℤ := (nip * (d.kernel_h * d.kernel_w * outHn d * outWn d) +
      kh * (d.kernel_w * outHn d * outWn d) + kw * (outHn d * outWn d) : ℕ)
    let srcOff : ℤ := (nip * (d.height * d.width) : ℕ)
    (List.range (outHn d)).flatMap fun (y : ℕ) =>
      let iy := y * d.stride_h + kh
      let ix := kw
      if d.stride_w = 1 then
        (List.range (outWn d)).map fun (i : ℕ) =>
          (dstOff + ((y * outWn d : ℕ) : ℤ) + i, srcOff + ((iy * d.width + ix : ℕ) : ℤ) + i)
      else
        (List.range (outWn d)).map fun (x : ℕ) =>
          (dstOff + ((y * outWn d + x : ℕ) : ℤ), srcOff + ((iy * d.width + ix + x * d.stride_w : ℕ) : ℤ))

/-- Col2im NCHW, fast path for zero padding and no dilation (lines 814-848),
zero-fill first. -/
def col2imNCHWfast (d : Desc) (col : Buf) (im : Buf) : Buf :=
  applyAdds (zeroFill im (d.height * d.width * d.channels)) (col2imFastOps d) col

/-- Column scan of the Col2im equal-padding fast path (lines 866-872):
cur is the data_col cursor; an in-range column adds col[cur] into the image,
an out-of-range one only advances the cursor.  Returns the emitted ops and
the cursor after the scan. -/
def col2imPadCols (d : Desc) (imOff input_row : ℤ) : ℕ → ℤ → ℤ → List (ℤ × ℤ) × ℤ
  | 0, _, cur => ([], cur)
  | n + 1, input_col, cur =>
      let rest := col2imPadCols d imOff input_row n (input_col + d.stride_w) (cur + 1)
      ((if is_a_ge_zero_and_a_lt_b input_col d.width then
          [(cur, imOff + input_row * d.width + input_col)]
        else []) ++ rest.1, rest.2)

/-- Row scan of the Col2im equal-padding fast path (lines 861-876): a row
outside the image advances the cursor by output_w (data_col += output_w of
line 863), otherwise the column scan runs; input_row advances by stride_h. -/
def col2imPadRows (d : Desc) (imOff : ℤ) (kernel_col : ℕ) : ℕ → ℤ → ℤ → List (ℤ × ℤ) × ℤ
  | 0, _, cur => ([], cur)
  | n + 1, input_row, cur =>
      let blk : List (ℤ × ℤ) × ℤ :=
        if is_a_ge_zero_and_a_lt_b input_row d.height then
          col2imPadCols d imOff input_row (outWn d) (-(d.pad_l : ℤ) + kernel_col * d.dilation_w) cur
        else ([], cur + (outWn d : ℤ))
      let rest := col2imPadRows d imOff kernel_col n (input_row + d.stride_h) blk.2
      (blk.1 ++ rest.1, rest.2)

/-- Accumulation operations of the Col2im equal-padding fast path
(lines 850-879), with the single data_col cursor threaded through the
channel and kernel loops exactly as in the C code; the channel loop counts
its index down while data_im advances one channel slice per iteration. -/
def col2imNCHWpadOps (d : Desc) : List (ℤ × ℤ) :=
  ((List.range d.channels).foldl (fun st (channel : ℕ) =>
    (List.range d.kernel_h).foldl (fun st (kernel_row : ℕ) =>
      (List.range d.kernel_w).foldl (fun st (kernel_col : ℕ) =>
        let blk := col2imPadRows d ((channel * (d.height * d.width) : ℕ)) kernel_col (outHn d)
          (-(d.pad_t : ℤ) + kernel_row * d.dilation_h) st.2
        (st.1 ++ blk.1, blk.2)) st) st) (([], 0) : List (ℤ × ℤ) × ℤ)).1

/-- Col2im NCHW, fast path for equal padding (lines 850-879), zero-fill
first. -/
def col2imNCHWpad (d : Desc) (col : Buf) (im : Buf) : Buf :=
  applyAdds (zeroFill im (d.height * d.width * d.channels)) (col2imNCHWpadOps d) col

/-- One kernel-column block of the equal-padding Col2im scan, as a function
of the cursor value at its start. -/
def padRowsB (d : Desc) (imOff : ℤ) (kr kc : ℕ) (cur : ℤ) : List (ℤ × ℤ) × ℤ :=
  col2imPadRows d imOff kc (outHn d) (-(d.pad_t : ℤ) + (kr : ℤ) * d.dilation_h) cur

/-- One kernel-row block (all kernel columns) of the equal-padding Col2im
scan, with the per-column cursor values written in closed form. -/
def padKCB (d : Desc) (imOff : ℤ) (kr : ℕ) (cur : ℤ) : List (ℤ × ℤ) × ℤ :=
  ((List.range d.kernel_w).flatMap fun (kc : ℕ) =>
    (padRowsB d imOff kr kc (cur + (kc : ℤ) * ((outHn d * outWn d : ℕ) : ℤ))).1,
   cur + (d.kernel_w : ℤ) * ((outHn d * outWn d : ℕ) : ℤ))

/-- One channel block (all kernel rows and columns) of the equal-padding
Col2im scan, with closed-form cursor values. -/
def padKRB (d : Desc) (imOff : ℤ) (cur : ℤ) : List (ℤ × ℤ) × ℤ :=
  ((List.range d.kernel_h).flatMap fun (kr : ℕ) =>
    (padKCB d imOff kr
      (cur + (kr : ℤ) * ((d.kernel_w : ℤ) * ((outHn d * outWn d : ℕ) : ℤ)))).1,
   cur + (d.kernel_h : ℤ) * ((d.kernel_w : ℤ) * ((outHn d * outWn d : ℕ) : ℤ)))

/-- Accumulation operations of the Col2im NCHW fallback (lines 881-903):
explicit indexing, an add only for in-range coordinates. -/
def col2imBaseOps (d : Desc) : List (ℤ × ℤ) :=
  (List.range (d.channels * d.kernel_h * d.kernel_w)).flatMap fun (c : ℕ) =>
    let w_offset := c % d.kernel_w
    let h_offset := (c / d.kernel_w) % d.kernel_h
    let c_im := c / d.kernel_h / d.kernel_w
    (List.range (outHn d)).flatMap fun (h : ℕ) =>
      (List.range (outWn d)).flatMap fun (w : ℕ) =>
        let h_pad : ℤ := (h : ℤ) * d.stride_h - d.pad_t + h_offset * d.dilation_h
        let w_pad : ℤ := (w : ℤ) * d.stride_w - d.pad_l + w_offset * d.dilation_w
        let colIdx : ℕ := (c * outHn d + h) * outWn d + w
        if 0 ≤ h_pad ∧ h_pad < d.height ∧ 0 ≤ w_pad ∧ w_pad < d.width then
          [((colIdx : ℤ), (((c_im * d.height : ℕ) : ℤ) + h_pad) * d.width + w_pad)]
        else []

/-- Col2im NCHW fallback (lines 881-903), zero-fill first. -/
def col2imNCHWbase (d : Desc) (col : Buf) (im : Buf) : Buf :=
  applyAdds (zeroFill im (d.height * d.width * d.channels)) (col2imBaseOps d) col

/-- Col2im NCHW dispatcher (lines 790-903): zero-fill, then the same three
paths as Im2col with the copy replaced by an add. -/
def col2imNCHW (d : Desc) (col : Buf) (im : Buf) : Buf :=
  if noPadNoDil d then col2imNCHWfast d col im
  else if eqPad d then col2imNCHWpad d col im
  else col2imNCHWbase d col im

/-- The accumulation operations of whichever Col2im NCHW path the
dispatcher selects. -/
def col2imOpsNCHW (d : Desc) : List (ℤ × ℤ) :=
  if noPadNoDil d then col2imFastOps d
  else if eqPad d then col2imNCHWpadOps d
  else col2imBaseOps d

/-- The C loop for (i = lo; i < bound; i += step), as the list of visited
values.  Termination needs a positive step, hence the guard; every call site
passes a dilation, which validity makes at least 1. -/
def stepList (lo bound step : ℤ) : List ℤ :=
  if _h : lo < bound ∧ 1 ≤ step then lo :: stepList (lo + step) bound step else []
termination_by (bound - lo).toNat
decreasing_by omega

/-- One contiguous run of n values read from a buffer at off: the memcpy of
sizeof(float) * channels of line 775. -/
def chunkAt (im : Buf) (off : ℤ) (n : ℕ) : List ℚ := (List.range n).map fun (q : ℕ) => im (off + q)

/-- One NHWC forward tap (lines 774-780): the channels run at
(ih * width + iw) * channels when the coordinate is in range, channels
zeros otherwise. -/
def nhwcTapList (d : Desc) (im : Buf) (ih iw : ℤ) : List ℚ :=
  if 0 ≤ ih ∧ ih < d.height ∧ 0 ≤ iw ∧ iw < d.width then
    chunkAt im ((ih * d.width + iw) * d.channels) d.channels
  else List.replicate d.channels 0

/-- Taps of one NHWC output position (lines 770-783): the two dilation-step
loops over ih and iw; an in-range tap copies the channels run at
(ih * width + iw) * channels, an out-of-range one emits channels zeros
(the memset of line 778). -/
def im2colNHWCtaps (d : Desc) (im : Buf) (h_pad w_pad : ℤ) : List (List ℚ) :=
  (stepList h_pad (h_pad + dkernelH d) d.dilation_h).flatMap fun (ih : ℤ) =>
    (stepList w_pad (w_pad + dkernelW d) d.dilation_w).map fun (iw : ℤ) =>
      if 0 ≤ ih ∧ ih < d.height ∧ 0 ≤ iw ∧ iw < d.width then
        chunkAt im ((ih * d.width + iw) * d.channels) d.channels
      else List.replicate d.channels 0

/-- NHWC output-column loop (lines 768-785): w_pad starts at -pad_l and
advances by stride_w. -/
def im2colNHWCcols (d : Desc) (im : Buf) (h_pad : ℤ) : ℕ → ℤ → List (List ℚ)
  | 0, _ => []
  | n + 1, w_pad => im2colNHWCtaps d im h_pad w_pad ++ im2colNHWCcols d im h_pad n (w_pad + d.stride_w)

/-- NHWC output-row loop (lines 766-786): h_pad starts at -pad_t and
advances by stride_h. -/
def im2colNHWCrows (d : Desc) (im : Buf) : ℕ → ℤ → List (List ℚ)
  | 0, _ => []
  | n + 1, h_pad =>
      im2colNHWCcols d im h_pad (outWn d) (-(d.pad_l : ℤ)) ++ im2colNHWCrows d im n (h_pad + d.stride_h)

/-- Im2col NHWC (lines 744-787): data_col advances by channels per tap, so
the flattened chunk list is written sequentially from the start of the
column buffer. -/
def im2colNHWC (d : Desc) (im : Buf) (col : Buf) : Buf :=
  writeRun col (im2colNHWCrows d im (outHn d) (-(d.pad_t : ℤ))).flatten

/-- Ops of one NHWC Col2im tap (lines 936-941): an in-range tap adds the
channels-long column run (the Add<float> of line 939) into the image patch
at (ih * width + iw) * channels; cur counts taps, and the column offset of
channel q of tap cur is cur * channels + q since data_col advances by
channels per tap. -/
def col2imNHWCtapOps (d : Desc) (cur ih iw : ℤ) : List (ℤ × ℤ) :=
  if 0 ≤ ih ∧ ih < d.height ∧ 0 ≤ iw ∧ iw < d.width then
    (List.range d.channels).map fun (q : ℕ) =>
      (cur * d.channels + q, (ih * d.width + iw) * d.channels + q)
  else []

/-- NHWC Col2im output-column loop (lines 932-944) with the tap cursor
threaded: every tap advances the cursor whether or not it is in range. -/
def col2imNHWCcols (d : Desc) : ℕ → ℤ → ℤ → ℤ → List (ℤ × ℤ) × ℤ
  | 0, _, _, cur => ([], cur)
  | n + 1, h_pad, w_pad, cur =>
      let taps := (stepList h_pad (h_pad + dkernelH d) d.dilation_h).flatMap fun (ih : ℤ) =>
        (stepList w_pad (w_pad + dkernelW d) d.dilation_w).map fun (iw : ℤ) => (ih, iw)
      let blk := taps.foldl (fun st (t : ℤ × ℤ) =>
        (st.1 ++ col2imNHWCtapOps d st.2 t.1 t.2, st.2 + 1)) (([], cur) : List (ℤ × ℤ) × ℤ)
      let rest := col2imNHWCcols d n h_pad (w_pad + d.stride_w) blk.2
      (blk.1 ++ rest.1, rest.2)

/-- NHWC Col2im output-row loop (lines 930-945). -/
def col2imNHWCrows (d : Desc) : ℕ → ℤ → ℤ → List (ℤ × ℤ) × ℤ
  | 0, _, cur => ([], cur)
  | n + 1, h_pad, cur =>
      let blk := col2imNHWCcols d (outWn d) h_pad (-(d.pad_l : ℤ)) cur
      let rest := col2imNHWCrows d n (h_pad + d.stride_h) blk.2
      (blk.1 ++ rest.1, rest.2)

/-- Col2im NHWC (lines 906-946): zero-fill, then accumulate every in-range
tap's channels run. -/
def col2imNHWC (d : Desc) (col : Buf) (im : Buf) : Buf :=
  applyAdds (zeroFill im (d.height * d.width * d.channels))
    ((col2imNHWCrows d (outHn d) (-(d.pad_t : ℤ)) 0).1) col

/-- Ops of one NHWC Col2im output position (all kernel taps), with the
per-tap cursor values written in closed form. -/
def nhwcColBlk (d : Desc) (h_pad w_pad cur : ℤ) : List (ℤ × ℤ) :=
  (List.range (d.kernel_h * d.kernel_w)).flatMap fun (r : ℕ) =>
    col2imNHWCtapOps d (cur + (r : ℤ) * 1)
      (h_pad + ((r / d.kernel_w : ℕ) : ℤ) * d.dilation_h)
      (w_pad + ((r % d.kernel_w : ℕ) : ℤ) * d.dilation_w)

/-- Ops of one NHWC Col2im output row, closed form. -/
def nhwcColsOps (d : Desc) (n : ℕ) (h_pad w_pad cur : ℤ) : List (ℤ × ℤ) :=
  (List.range n).flatMap fun (ox : ℕ) =>
    nhwcColBlk d h_pad (w_pad + (ox : ℤ) * d.stride_w)
      (cur + (ox : ℤ) * ((d.kernel_h * d.kernel_w : ℕ) : ℤ))

/-- All NHWC Col2im ops, closed form. -/
def nhwcRowsOps (d : Desc) (n : ℕ) (h_pad cur : ℤ) : List (ℤ × ℤ) :=
  (List.range n).flatMap fun (oy : ℕ) =>
    nhwcColsOps d (outWn d) (h_pad + (oy : ℤ) * d.stride_h) (-(d.pad_l : ℤ))
      (cur + (oy : ℤ) * (((outWn d : ℕ) : ℤ) * ((d.kernel_h * d.kernel_w : ℕ) : ℤ)))

/-!  Natural-number forms of the derived extents, and basic facts about
valid descriptors. -/

/-- Effective kernel extent along h as a natural (equals dkernelH when
kernel_h is at least 1). -/
def dkernelHn (d : Desc) : ℕ := d.dilation_h * (d.kernel_h - 1) + 1

/-- Effective kernel extent along w as a natural. -/
def dkernelWn (d : Desc) : ℕ := d.dilation_w * (d.kernel_w - 1) + 1

/-- Padded input minus effective kernel along h, as a natural. -/
def numHn (d : Desc) : ℕ := d.height + d.pad_b + d.pad_t - dkernelHn d

/-- Padded input minus effective kernel along w, as a natural. -/
def numWn (d : Desc) : ℕ := d.width + d.pad_l + d.pad_r - dkernelWn d

/-- Mapped input coordinate of column entry (k, y, x): decode the flattened
kernel index k into channel and kernel offsets exactly as the fallback loops
of lines 727-737 do, map through stride, padding and dilation, and return
the image offset when the coordinate is inside the image. -/
def colTarget (d : Desc) (k y x : ℕ) : Option ℤ :=
  let w_offset := k % d.kernel_w
  let h_offset := (k / d.kernel_w) % d.kernel_h
  let c_im := k / d.kernel_h / d.kernel_w
  let h_pad : ℤ := (y : ℤ) * d.stride_h - d.pad_t + h_offset * d.dilation_h
  let w_pad : ℤ := (x : ℤ) * d.stride_w - d.pad_l + w_offset * d.dilation_w
  if 0 ≤ h_pad ∧ h_pad < d.height ∧ 0 ≤ w_pad ∧ w_pad < d.width then
    some ((((c_im * d.height : ℕ) : ℤ) + h_pad) * d.width + w_pad)
  else none

/-- Value of column entry (k, y, x): the image sample at the mapped
coordinate, or zero when it falls in the padding region. -/
def im2colVal (d : Desc) (im : Buf) (k y x : ℕ) : ℚ :=
  match colTarget d k y x with
  | some t => im t
  | none => 0

/-- Canonical accumulated contribution of the column buffer to image offset
j: the sum, over all column entries whose mapped input coordinate is j, of
the column value, in the shared (channel, kernel_row, kernel_col,
output_row, output_col) scan order of all three Col2im paths. -/
def col2imAcc (d : Desc) (col : Buf) (j : ℤ) : ℚ :=
  ((List.range (d.channels * d.kernel_h * d.kernel_w)).map fun (k : ℕ) =>
    ((List.range (outHn d)).map fun (y : ℕ) =>
      ((List.range (outWn d)).map fun (x : ℕ) =>
        if colTarget d k y x = some j then
          col (((k * outHn d + y) * outWn d + x : ℕ) : ℤ)
        else 0).sum).sum).sum

/-- F writes exactly the buffer interval [base, base + len) - entry
base + p receives out p - and leaves every other entry unchanged. -/
def WritesInterval (F : Buf → Buf) (base : ℤ) (len : ℕ) (out : ℕ → ℚ) : Prop :=
  ∀ b j, F b j = if base ≤ j ∧ j < base + len then out (j - base).toNat else b j

/-- Concrete fixture: the 4x4 single-channel descriptor of the worked
example (kernel 2x2, stride 1, dilation 1, no padding). -/
def d0 : Desc := ⟨1, 4, 4, 2, 2, 1, 1, 0, 0, 0, 0, 1, 1⟩

/-- Concrete fixture: a 2x2 single-channel descriptor with 1x1 kernel. -/
def d1 : Desc := ⟨1, 2, 2, 1, 1, 1, 1, 0, 0, 0, 0, 1, 1⟩

/-- Concrete fixture: a 3x3 single-channel descriptor with 2x2 kernel and
all paddings 1 (equal but nonzero padding), stride 2. -/
def d2 : Desc := ⟨1, 2, 2, 2, 2, 1, 1, 1, 1, 1, 1, 2, 2⟩

/-- The signal 0, 1, 2, ... in row-major order. -/
def S0 : Buf := fun i => (i : ℚ)

/-- The all-zeros buffer. -/
def zB : Buf := fun _ => 0

/-- The all-ones buffer. -/
def onesB : Buf := fun _ => 1

theorem dkernelH_cast {d : Desc} (v : Valid d) : dkernelH d = (dkernelHn d : ℤ) := by
  have h := v.kh
  unfold dkernelH dkernelHn
  push_cast [Nat.cast_sub h]
  ring

theorem dkernelW_cast {d : Desc} (v : Valid d) : dkernelW d = (dkernelWn d : ℤ) := by
  have h := v.kw
  unfold dkernelW dkernelWn
  push_cast [Nat.cast_sub h]
  ring

theorem dkernelHn_le {d : Desc} (v : Valid d) : dkernelHn d ≤ d.height + d.pad_b + d.pad_t := by
  have h := v.numH
  rw [dkernelH_cast v] at h
  exact_mod_cast h

theorem dkernelWn_le {d : Desc} (v : Valid d) : dkernelWn d ≤ d.width + d.pad_l + d.pad_r := by
  have h := v.numW
  rw [dkernelW_cast v] at h
  exact_mod_cast h

theorem outH_cast {d : Desc} (v : Valid d) : outH d = ((numHn d / d.stride_h + 1 : ℕ) : ℤ) := by
  have hle := dkernelHn_le v
  have hcast : (d.height : ℤ) + d.pad_b + d.pad_t - dkernelH d = (numHn d : ℤ) := by
    rw [dkernelH_cast v]
    unfold numHn
    push_cast [Nat.cast_sub hle]
    ring
  unfold outH outputSize
  rw [show ((d.height : ℤ) + d.pad_b + d.pad_t -
      ((d.dilation_h : ℤ) * ((d.kernel_h : ℤ) - 1) + 1)) = (numHn d : ℤ) from hcast]
  rw [← Int.ofNat_tdiv]
  push_cast
  ring

theorem outW_cast {d : Desc} (v : Valid d) : outW d = ((numWn d / d.stride_w + 1 : ℕ) : ℤ) := by
  have hle := dkernelWn_le v
  have hcast : (d.width : ℤ) + d.pad_l + d.pad_r - dkernelW d = (numWn d : ℤ) := by
    rw [dkernelW_cast v]
    unfold numWn
    push_cast [Nat.cast_sub hle]
    ring
  unfold outW outputSize
  rw [show ((d.width : ℤ) + d.pad_l + d.pad_r -
      ((d.dilation_w : ℤ) * ((d.kernel_w : ℤ) - 1) + 1)) = (numWn d : ℤ) from hcast]
  rw [← Int.ofNat_tdiv]
  push_cast
  ring

theorem outHn_eq {d : Desc} (v : Valid d) : outHn d = numHn d / d.stride_h + 1 := by
  unfold outHn
  rw [outH_cast v]
  exact Int.toNat_natCast _

theorem outWn_eq {d : Desc} (v : Valid d) : outWn d = numWn d / d.stride_w + 1 := by
  unfold outWn
  rw [outW_cast v]
  exact Int.toNat_natCast _

theorem outHn_pos {d : Desc} (v : Valid d) : 1 ≤ outHn d := by
  rw [outHn_eq v]
  exact Nat.le_add_left 1 _

theorem outWn_pos {d : Desc} (v : Valid d) : 1 ≤ outWn d := by
  rw [outWn_eq v]
  exact Nat.le_add_left 1 _

/-- The last output row still fits: (output_h - 1) * stride_h stays within
the padded extent minus the effective kernel. -/
theorem outHn_pred_mul {d : Desc} (v : Valid d) : (outHn d - 1) * d.stride_h ≤ numHn d := by
  rw [outHn_eq v]
  simpa using Nat.div_mul_le_self (numHn d) d.stride_h

theorem outWn_pred_mul {d : Desc} (v : Valid d) : (outWn d - 1) * d.stride_w ≤ numWn d := by
  rw [outWn_eq v]
  simpa using Nat.div_mul_le_self (numWn d) d.stride_w

/-- The unsigned-comparison bounds test agrees with 0 ≤ a < b whenever both
operands are in 32-bit signed range and b is non-negative. -/
theorem is_a_ge_iff {a b : ℤ} (ha1 : -(2 ^ 31) ≤ a) (ha2 : a < 2 ^ 31)
    (hb1 : 0 ≤ b) (hb2 : b < 2 ^ 31) :
    is_a_ge_zero_and_a_lt_b a b = true ↔ 0 ≤ a ∧ a < b := by
  simp only [is_a_ge_zero_and_a_lt_b, decide_eq_true_eq]
  omega

/-- Two-component mixed-radix addresses are unique: if the low parts are in
[0, w) then equal addresses have equal components. -/
theorem addrInj {A B ic s w : ℤ} (hw : 0 ≤ w) (h1 : 0 ≤ ic) (h2 : ic < w)
    (h3 : 0 ≤ s) (h4 : s < w) (h : A * w + ic = B * w + s) : A = B ∧ ic = s := by
  have key : (A - B) * w = s - ic := by linear_combination h
  have hAB : A = B := by
    rcases lt_trichotomy A B with hlt | heq | hgt
    · exfalso
      have h5 : (1 : ℤ) ≤ B - A := by omega
      have h6 : 1 * w ≤ (B - A) * w := mul_le_mul_of_nonneg_right h5 hw
      have h7 : (B - A) * w = ic - s := by linear_combination -key
      linarith
    · exact heq
    · exfalso
      have h5 : (1 : ℤ) ≤ A - B := by omega
      have h6 : 1 * w ≤ (A - B) * w := mul_le_mul_of_nonneg_right h5 hw
      linarith
  refine ⟨hAB, ?_⟩
  subst hAB
  linarith [h]

/-- Flattened kernel index decomposition: nip * (m1 * m2) + kh * m2 + kw
recovers k. -/
theorem kernel_decomp (k m1 m2 : ℕ) :
    k / (m1 * m2) * (m1 * m2) + k % (m1 * m2) / m2 * m2 + k % (m1 * m2) % m2 = k := by
  rw [add_assoc, Nat.div_add_mod', Nat.div_add_mod']

theorem encode_div {i j L : ℕ} (hj : j < L) : (i * L + j) / L = i := by
  have hL : 0 < L := by omega
  rw [Nat.add_comm, Nat.add_mul_div_right _ _ hL, Nat.div_eq_of_lt hj]
  omega

theorem encode_mod {i j L : ℕ} (hj : j < L) : (i * L + j) % L = j := by
  rw [Nat.add_comm, Nat.add_mul_mod_self_right, Nat.mod_eq_of_lt hj]

theorem yx_lt {y x OH OW : ℕ} (hy : y < OH) (hx : x < OW) : y * OW + x < OH * OW := by
  calc y * OW + x < y * OW + OW := by omega
  _ = (y + 1) * OW := by ring
  _ ≤ OH * OW := Nat.mul_le_mul_right OW hy

theorem flat_lt {k r n M : ℕ} (hk : k < n) (hr : r < M) : k * M + r < n * M := by
  calc k * M + r < k * M + M := by omega
  _ = (k + 1) * M := by ring
  _ ≤ n * M := Nat.mul_le_mul_right M hk

/-!  Interval writers: the common shape of all Im2col write loops.  -/

theorem WritesInterval.congrOut {F : Buf → Buf} {base : ℤ} {len : ℕ} {out : ℕ → ℚ}
    (out2 : ℕ → ℚ) (h : WritesInterval F base len out)
    (h2 : ∀ p, p < len → out p = out2 p) :
    WritesInterval F base len out2 := by
  intro b j
  rw [h b j]
  split_ifs with hc
  · exact h2 _ (by omega)
  · rfl

theorem WritesInterval.congrBase {F : Buf → Buf} {base base2 : ℤ} {len : ℕ} {out : ℕ → ℚ}
    (h : WritesInterval F base len out) (hb : base = base2) :
    WritesInterval F base2 len out := hb ▸ h

theorem writesInterval_store (i : ℤ) (v : ℚ) :
    WritesInterval (fun b => store b i v) i 1 (fun _ => v) := by
  intro b j
  simp only [store, Function.update_apply]
  split_ifs with h1 h2 h2
  · rfl
  · omega
  · omega
  · rfl

theorem WritesInterval.value {F : Buf → Buf} {base : ℤ} {len : ℕ} {out : ℕ → ℚ}
    (h : WritesInterval F base len out) (b : Buf) (p : ℕ) (hp : p < len) :
    F b (base + p) = out p := by
  rw [h b (base + p), if_pos (by constructor <;> omega)]
  congr 1
  omega

theorem WritesInterval.outside {F : Buf → Buf} {base : ℤ} {len : ℕ} {out : ℕ → ℚ}
    (h : WritesInterval F base len out) (b : Buf) (j : ℤ)
    (hj : j < base ∨ base + len ≤ j) : F b j = b j := by
  rw [h b j, if_neg (by omega)]

theorem WritesInterval.value0 {F : Buf → Buf} {len : ℕ} {out : ℕ → ℚ}
    (h : WritesInterval F 0 len out) (b : Buf) {j : ℤ} (h0 : 0 ≤ j) (hlt : j < (len : ℤ)) :
    F b j = out j.toNat := by
  rw [h b j, if_pos ⟨by omega, by omega⟩, sub_zero]

theorem WritesInterval.outside0 {F : Buf → Buf} {len : ℕ} {out : ℕ → ℚ}
    (h : WritesInterval F 0 len out) (b : Buf) {j : ℤ}
    (hj : ¬(0 ≤ j ∧ j < (len : ℤ))) : F b j = b j := by
  rw [h b j, if_neg (by omega)]

/-- Folding interval-writing bodies over List.range n, body k writing the
L-long slot at base + k * L, writes the whole interval of length n * L. -/
theorem writesInterval_foldl {n L : ℕ} {base : ℤ} {body : ℕ → Buf → Buf} {out : ℕ → ℕ → ℚ}
    (hb : ∀ k, k < n → WritesInterval (body k) (base + (k * L : ℕ)) L (out k)) :
    WritesInterval (fun b => (List.range n).foldl (fun b k => body k b) b) base (n * L)
      (fun p => out (p / L) (p % L)) := by
  induction n with
  | zero =>
      intro b j
      simp only [List.range_zero, List.foldl_nil, Nat.zero_mul, Nat.cast_zero, add_zero]
      rw [if_neg (by omega)]
  | succ n ih =>
      intro b j
      simp only [List.range_succ, List.foldl_append, List.foldl_cons, List.foldl_nil]
      rw [hb n (by omega) _ j]
      have hnL : ((n + 1) * L : ℕ) = (n * L : ℕ) + L := by ring
      by_cases hA : base + ((n * L : ℕ) : ℤ) ≤ j ∧ j < base + ((n * L : ℕ) : ℤ) + L
      · rw [if_pos hA, if_pos (by rw [hnL]; push_cast; omega)]
        have hL : 0 < L := by omega
        have hr : (j - (base + ((n * L : ℕ) : ℤ))).toNat < L := by omega
        have hp : (j - base).toNat = n * L + (j - (base + ((n * L : ℕ) : ℤ))).toNat := by omega
        rw [hp, encode_div hr, encode_mod hr]
      · rw [if_neg hA]
        have hih := ih (fun k hk => hb k (by omega)) b j
        rw [show (fun b => List.foldl (fun b k => body k b) b (List.range n)) b j =
          List.foldl (fun b k => body k b) b (List.range n) j from rfl] at hih
        rw [hih]
        by_cases hB : base ≤ j ∧ j < base + ((n * L : ℕ) : ℤ)
        · rw [if_pos hB, if_pos (by rw [hnL]; push_cast; omega)]
        · rw [if_neg hB, if_neg (by rw [hnL]; push_cast; omega)]

theorem writesInterval_memcpyF (dOff sOff : ℤ) (src : Buf) (n : ℕ) :
    WritesInterval (fun b => memcpyF b dOff src sOff n) dOff n (fun p => src (sOff + p)) := by
  have h := @writesInterval_foldl n 1 dOff
    (fun i b => store b (dOff + i) (src (sOff + i)))
    (fun i _ => src (sOff + i))
    (fun k _ => (writesInterval_store (dOff + k) (src (sOff + k))).congrBase (by push_cast; ring))
  rw [Nat.mul_one] at h
  intro b j
  unfold memcpyF
  exact h.congrOut (fun p => src (sOff + p)) (fun p _ => by rw [Nat.div_one]) b j

theorem memcpyF_app (dOff sOff : ℤ) (src : Buf) (n : ℕ) (b : Buf) (j : ℤ) :
    memcpyF b dOff src sOff n j =
      if dOff ≤ j ∧ j < dOff + n then src (sOff + (j - dOff).toNat) else b j :=
  writesInterval_memcpyF dOff sOff src n b j

theorem im2colFastRow_writes (d : Desc) (im : Buf) (srcOff dstOff : ℤ) (kh kw y : ℕ) :
    WritesInterval (im2colFastRow d im srcOff dstOff kh kw y)
      (dstOff + ((y * outWn d : ℕ) : ℤ)) (outWn d)
      (fun x => im (srcOff + ((y * d.stride_h + kh) * d.width + kw + x * d.stride_w : ℕ))) := by
  by_cases hsw : d.stride_w = 1
  · intro b j
    unfold im2colFastRow
    rw [if_pos hsw]
    rw [memcpyF_app]
    split_ifs with hc
    · congr 1
      rw [hsw]
      push_cast
      ring
    · rfl
  · have h := @writesInterval_foldl (outWn d) 1 (dstOff + ((y * outWn d : ℕ) : ℤ))
      (fun x col => memcpyF col (dstOff + ((y * outWn d + x : ℕ) : ℤ))
        im (srcOff + (((y * d.stride_h + kh) * d.width + kw + x * d.stride_w : ℕ) : ℤ)) 1)
      (fun x _ => im (srcOff + (((y * d.stride_h + kh) * d.width + kw + x * d.stride_w : ℕ) : ℤ)))
      (fun x _ => WritesInterval.congrBase
        ((writesInterval_memcpyF _ _ im 1).congrOut
          (fun _ => im (srcOff + (((y * d.stride_h + kh) * d.width + kw + x * d.stride_w : ℕ) : ℤ)))
          (fun p hp => by
            have hp0 : p = 0 := by omega
            rw [hp0, Nat.cast_zero, add_zero]))
        (by push_cast; ring))
    rw [Nat.mul_one] at h
    intro b j
    unfold im2colFastRow
    rw [if_neg hsw]
    exact h.congrOut
      (fun x => im (srcOff + ((y * d.stride_h + kh) * d.width + kw + x * d.stride_w : ℕ)))
      (fun p hp => by rw [Nat.div_one]) b j

theorem im2colFastK_writes (d : Desc) (im : Buf) (k : ℕ) :
    WritesInterval (im2colFastK d im k) ((k * (outHn d * outWn d) : ℕ) : ℤ) (outHn d * outWn d)
      (fun p => im ((k / (d.kernel_h * d.kernel_w) * (d.height * d.width) +
        ((p / outWn d * d.stride_h + k % (d.kernel_h * d.kernel_w) / d.kernel_w) * d.width +
          k % (d.kernel_h * d.kernel_w) % d.kernel_w + p % outWn d * d.stride_w) : ℕ))) := by
  have hdst : (k / (d.kernel_h * d.kernel_w) * (d.kernel_h * d.kernel_w * outHn d * outWn d) +
      k % (d.kernel_h * d.kernel_w) / d.kernel_w * (d.kernel_w * outHn d * outWn d) +
      k % (d.kernel_h * d.kernel_w) % d.kernel_w * (outHn d * outWn d))
      = k * (outHn d * outWn d) := by
    have h2 : (k / (d.kernel_h * d.kernel_w) * (d.kernel_h * d.kernel_w * outHn d * outWn d) +
        k % (d.kernel_h * d.kernel_w) / d.kernel_w * (d.kernel_w * outHn d * outWn d) +
        k % (d.kernel_h * d.kernel_w) % d.kernel_w * (outHn d * outWn d))
        = (k / (d.kernel_h * d.kernel_w) * (d.kernel_h * d.kernel_w) +
          k % (d.kernel_h * d.kernel_w) / d.kernel_w * d.kernel_w +
          k % (d.kernel_h * d.kernel_w) % d.kernel_w) * (outHn d * outWn d) := by ring
    rw [h2, kernel_decomp]
  have h := @writesInterval_foldl (outHn d) (outWn d) ((k * (outHn d * outWn d) : ℕ) : ℤ)
    (fun y col => im2colFastRow d im
      ((k / (d.kernel_h * d.kernel_w) * (d.height * d.width) : ℕ) : ℤ)
      ((k / (d.kernel_h * d.kernel_w) * (d.kernel_h * d.kernel_w * outHn d * outWn d) +
        k % (d.kernel_h * d.kernel_w) / d.kernel_w * (d.kernel_w * outHn d * outWn d) +
        k % (d.kernel_h * d.kernel_w) % d.kernel_w * (outHn d * outWn d) : ℕ) : ℤ)
      (k % (d.kernel_h * d.kernel_w) / d.kernel_w) (k % (d.kernel_h * d.kernel_w) % d.kernel_w) y col)
    (fun y x => im ((k / (d.kernel_h * d.kernel_w) * (d.height * d.width) +
      ((y * d.stride_h + k % (d.kernel_h * d.kernel_w) / d.kernel_w) * d.width +
        k % (d.kernel_h * d.kernel_w) % d.kernel_w + x * d.stride_w) : ℕ)))
    (fun y hy => ((im2colFastRow_writes d im _ _ _ _ y).congrOut _
      (fun x hx => congrArg im (by push_cast; ring))).congrBase (by rw [hdst]))
  intro b j
  unfold im2colFastK
  exact h b j

theorem im2colNCHWfast_writes (d : Desc) (im : Buf) :
    WritesInterval (im2colNCHWfast d im) 0
      (d.channels * d.kernel_h * d.kernel_w * (outHn d * outWn d))
      (fun p => im ((p / (outHn d * outWn d) / (d.kernel_h * d.kernel_w) * (d.height * d.width) +
        ((p % (outHn d * outWn d) / outWn d * d.stride_h +
          p / (outHn d * outWn d) % (d.kernel_h * d.kernel_w) / d.kernel_w) * d.width +
          p / (outHn d * outWn d) % (d.kernel_h * d.kernel_w) % d.kernel_w +
          p % (outHn d * outWn d) % outWn d * d.stride_w) : ℕ))) := by
  have h := @writesInterval_foldl (d.channels * d.kernel_h * d.kernel_w) (outHn d * outWn d) 0
    (fun k col => im2colFastK d im k col)
    (fun k p => im ((k / (d.kernel_h * d.kernel_w) * (d.height * d.width) +
      ((p / outWn d * d.stride_h + k % (d.kernel_h * d.kernel_w) / d.kernel_w) * d.width +
        k % (d.kernel_h * d.kernel_w) % d.kernel_w + p % outWn d * d.stride_w) : ℕ)))
    (fun k hk => (im2colFastK_writes d im k).congrBase (zero_add _).symm)
  intro b j
  unfold im2colNCHWfast
  exact h b j

theorem im2colVal_eq_ite (d : Desc) (im : Buf) (k y x : ℕ) :
    im2colVal d im k y x =
      if 0 ≤ ((y * d.stride_h : ℕ) : ℤ) - d.pad_t + ((k / d.kernel_w % d.kernel_h * d.dilation_h : ℕ) : ℤ) ∧
         ((y * d.stride_h : ℕ) : ℤ) - d.pad_t + ((k / d.kernel_w % d.kernel_h * d.dilation_h : ℕ) : ℤ) < d.height ∧
         0 ≤ ((x * d.stride_w : ℕ) : ℤ) - d.pad_l + ((k % d.kernel_w * d.dilation_w : ℕ) : ℤ) ∧
         ((x * d.stride_w : ℕ) : ℤ) - d.pad_l + ((k % d.kernel_w * d.dilation_w : ℕ) : ℤ) < d.width then
        im ((((k / d.kernel_h / d.kernel_w * d.height : ℕ) : ℤ) +
          (((y * d.stride_h : ℕ) : ℤ) - d.pad_t + ((k / d.kernel_w % d.kernel_h * d.dilation_h : ℕ) : ℤ))) * d.width +
          (((x * d.stride_w : ℕ) : ℤ) - d.pad_l + ((k % d.kernel_w * d.dilation_w : ℕ) : ℤ)))
      else 0 := by
  by_cases h : 0 ≤ ((y * d.stride_h : ℕ) : ℤ) - d.pad_t + ((k / d.kernel_w % d.kernel_h * d.dilation_h : ℕ) : ℤ) ∧
      ((y * d.stride_h : ℕ) : ℤ) - d.pad_t + ((k / d.kernel_w % d.kernel_h * d.dilation_h : ℕ) : ℤ) < d.height ∧
      0 ≤ ((x * d.stride_w : ℕ) : ℤ) - d.pad_l + ((k % d.kernel_w * d.dilation_w : ℕ) : ℤ) ∧
      ((x * d.stride_w : ℕ) : ℤ) - d.pad_l + ((k % d.kernel_w * d.dilation_w : ℕ) : ℤ) < d.width
  · rw [if_pos h]
    unfold im2colVal
    rw [show colTarget d k y x = some ((((k / d.kernel_h / d.kernel_w * d.height : ℕ) : ℤ) +
      (((y * d.stride_h : ℕ) : ℤ) - d.pad_t + ((k / d.kernel_w % d.kernel_h * d.dilation_h : ℕ) : ℤ))) * d.width +
      (((x * d.stride_w : ℕ) : ℤ) - d.pad_l + ((k % d.kernel_w * d.dilation_w : ℕ) : ℤ))) from by
        unfold colTarget; exact if_pos h]
  · rw [if_neg h]
    unfold im2colVal
    rw [show colTarget d k y x = none from by unfold colTarget; exact if_neg h]

theorem im2colNCHWbase_writes (d : Desc) (im : Buf) :
    WritesInterval (im2colNCHWbase d im) 0
      (d.channels * d.kernel_h * d.kernel_w * (outHn d * outWn d))
      (fun p => im2colVal d im (p / (outHn d * outWn d))
        (p % (outHn d * outWn d) / outWn d) (p % (outHn d * outWn d) % outWn d)) := by
  have h := @writesInterval_foldl (d.channels * d.kernel_h * d.kernel_w) (outHn d * outWn d) 0
    (fun c col => (List.range (outHn d)).foldl (fun col (h : ℕ) =>
      (List.range (outWn d)).foldl (fun col (w : ℕ) =>
        store col (((c * outHn d + h) * outWn d + w : ℕ) : ℤ)
          (if 0 ≤ (h : ℤ) * d.stride_h - d.pad_t + (c / d.kernel_w) % d.kernel_h * d.dilation_h ∧
              (h : ℤ) * d.stride_h - d.pad_t + (c / d.kernel_w) % d.kernel_h * d.dilation_h < d.height ∧
              0 ≤ (w : ℤ) * d.stride_w - d.pad_l + c % d.kernel_w * d.dilation_w ∧
              (w : ℤ) * d.stride_w - d.pad_l + c % d.kernel_w * d.dilation_w < d.width then
            im ((((c / d.kernel_h / d.kernel_w * d.height : ℕ) : ℤ) +
              ((h : ℤ) * d.stride_h - d.pad_t + (c / d.kernel_w) % d.kernel_h * d.dilation_h)) * d.width +
              ((w : ℤ) * d.stride_w - d.pad_l + c % d.kernel_w * d.dilation_w))
          else 0)) col) col)
    (fun c p => im2colVal d im c (p / outWn d) (p % outWn d))
    ?hcomp
  case hcomp =>
    intro c hc
    have h2 := @writesInterval_foldl (outHn d) (outWn d) ((c * (outHn d * outWn d) : ℕ) : ℤ)
      (fun h col => (List.range (outWn d)).foldl (fun col (w : ℕ) =>
        store col (((c * outHn d + h) * outWn d + w : ℕ) : ℤ)
          (if 0 ≤ (h : ℤ) * d.stride_h - d.pad_t + (c / d.kernel_w) % d.kernel_h * d.dilation_h ∧
              (h : ℤ) * d.stride_h - d.pad_t + (c / d.kernel_w) % d.kernel_h * d.dilation_h < d.height ∧
              0 ≤ (w : ℤ) * d.stride_w - d.pad_l + c % d.kernel_w * d.dilation_w ∧
              (w : ℤ) * d.stride_w - d.pad_l + c % d.kernel_w * d.dilation_w < d.width then
            im ((((c / d.kernel_h / d.kernel_w * d.height : ℕ) : ℤ) +
              ((h : ℤ) * d.stride_h - d.pad_t + (c / d.kernel_w) % d.kernel_h * d.dilation_h)) * d.width +
              ((w : ℤ) * d.stride_w - d.pad_l + c % d.kernel_w * d.dilation_w))
          else 0)) col)
      (fun h w => im2colVal d im c h w)
      ?hcomp2
    case hcomp2 =>
      intro hh hhlt
      have h3 := @writesInterval_foldl (outWn d) 1 (((c * outHn d + hh) * outWn d : ℕ) : ℤ)
        (fun w col =>
          store col (((c * outHn d + hh) * outWn d + w : ℕ) : ℤ)
            (if 0 ≤ (hh : ℤ) * d.stride_h - d.pad_t + (c / d.kernel_w) % d.kernel_h * d.dilation_h ∧
                (hh : ℤ) * d.stride_h - d.pad_t + (c / d.kernel_w) % d.kernel_h * d.dilation_h < d.height ∧
                0 ≤ (w : ℤ) * d.stride_w - d.pad_l + c % d.kernel_w * d.dilation_w ∧
                (w : ℤ) * d.stride_w - d.pad_l + c % d.kernel_w * d.dilation_w < d.width then
              im ((((c / d.kernel_h / d.kernel_w * d.height : ℕ) : ℤ) +
                ((hh : ℤ) * d.stride_h - d.pad_t + (c / d.kernel_w) % d.kernel_h * d.dilation_h)) * d.width +
                ((w : ℤ) * d.stride_w - d.pad_l + c % d.kernel_w * d.dilation_w))
            else 0))
        (fun w _ => im2colVal d im c hh w)
        (fun w hw => (writesInterval_store _ _).congrOut _
          (fun p hp => (im2colVal_eq_ite d im c hh w).symm) |>.congrBase (by push_cast; ring))
      rw [Nat.mul_one] at h3
      exact (h3.congrOut (fun w => im2colVal d im c hh w) (fun p hp => by rw [Nat.div_one])).congrBase
        (show (((c * outHn d + hh) * outWn d : ℕ) : ℤ) =
          ((c * (outHn d * outWn d) : ℕ) : ℤ) + ((hh * outWn d : ℕ) : ℤ) by push_cast; ring)
    exact h2.congrBase (zero_add _).symm
  intro b j
  unfold im2colNCHWbase
  exact h b j

theorem writesInterval_writeRun (l : List ℚ) :
    WritesInterval (fun b => writeRun b l) 0 l.length (fun p => l.getD p 0) := by
  intro b j
  simp only [writeRun, zero_add]
  split_ifs with h1
  · congr 1
    omega
  · rfl

theorem getD_replicate {n x : ℕ} (v dflt : ℚ) (h : x < n) :
    (List.replicate n v).getD x dflt = v := by
  have hn : x < (List.replicate n v).length := by simpa using h
  rw [List.getD_eq_getElem _ _ hn, List.getElem_replicate]

theorem flatMap_range_succ {α : Type} (f : ℕ → List α) (n : ℕ) :
    (List.range (n + 1)).flatMap f = (List.range n).flatMap f ++ f n := by
  rw [List.range_succ, List.flatMap_append]
  simp

theorem length_flatMap_const {α : Type} {L : ℕ} (n : ℕ) (f : ℕ → List α)
    (hL : ∀ k, k < n → (f k).length = L) :
    ((List.range n).flatMap f).length = n * L := by
  induction n with
  | zero => simp
  | succ n ih =>
      rw [flatMap_range_succ, List.length_append, ih (fun k hk => hL k (by omega)),
        hL n (by omega)]
      ring

theorem getD_flatMap_range {α : Type} (dflt : α) {n L : ℕ} (f : ℕ → List α)
    (hL : ∀ k, k < n → (f k).length = L) {i r : ℕ} (hi : i < n) (hr : r < L) :
    ((List.range n).flatMap f).getD (i * L + r) dflt = (f i).getD r dflt := by
  induction n with
  | zero => omega
  | succ n ih =>
      rw [flatMap_range_succ]
      by_cases hin : i < n
      · rw [List.getD_append _ _ _ _ (by
          rw [length_flatMap_const n f (fun k hk => hL k (by omega))]
          exact flat_lt hin hr)]
        exact ih (fun k hk => hL k (by omega)) hin
      · have hieq : i = n := by omega
        subst hieq
        rw [List.getD_append_right _ _ _ _ (by
          rw [length_flatMap_const i f (fun k hk => hL k (by omega))]
          omega)]
        rw [length_flatMap_const i f (fun k hk => hL k (by omega))]
        congr 1
        omega

theorem im2colPadCols_length (d : Desc) (im : Buf) (imOff ir : ℤ) :
    ∀ (n : ℕ) (ic : ℤ), (im2colPadCols d im imOff ir n ic).length = n := by
  intro n
  induction n with
  | zero => intro ic; rfl
  | succ n ih =>
      intro ic
      simp only [im2colPadCols, List.length_cons, ih]

theorem im2colPadRows_length (d : Desc) (im : Buf) (imOff : ℤ) (kc : ℕ) :
    ∀ (n : ℕ) (ir : ℤ), (im2colPadRows d im imOff kc n ir).length = n * outWn d := by
  intro n
  induction n with
  | zero => intro ir; simp [im2colPadRows]
  | succ n ih =>
      intro ir
      simp only [im2colPadRows, List.length_append, ih]
      split_ifs with h
      · rw [im2colPadCols_length]
        ring
      · rw [List.length_replicate]
        ring

theorem im2colPadCols_getD (d : Desc) (im : Buf) (imOff ir : ℤ) :
    ∀ (n : ℕ) (ic : ℤ) (x : ℕ), x < n →
      (im2colPadCols d im imOff ir n ic).getD x 0 =
        if is_a_ge_zero_and_a_lt_b (ic + (x : ℤ) * d.stride_w) d.width then
          im (imOff + ir * d.width + (ic + (x : ℤ) * d.stride_w))
        else 0 := by
  intro n
  induction n with
  | zero => intro ic x hx; omega
  | succ n ih =>
      intro ic x hx
      match x with
      | 0 =>
          simp only [im2colPadCols, List.getD_cons_zero]
          norm_num
      | x + 1 =>
          simp only [im2colPadCols, List.getD_cons_succ]
          rw [ih (ic + d.stride_w) x (by omega)]
          have e : ic + (d.stride_w : ℤ) + (x : ℤ) * d.stride_w =
              ic + ((x + 1 : ℕ) : ℤ) * d.stride_w := by
            push_cast
            ring
          rw [e]

theorem im2colPadRows_getD (d : Desc) (im : Buf) (imOff : ℤ) (kc : ℕ) :
    ∀ (n : ℕ) (ir : ℤ) (y x : ℕ), y < n → x < outWn d →
      (im2colPadRows d im imOff kc n ir).getD (y * outWn d + x) 0 =
        if is_a_ge_zero_and_a_lt_b (ir + (y : ℤ) * d.stride_h) d.height then
          (if is_a_ge_zero_and_a_lt_b
              (-(d.pad_l : ℤ) + (kc : ℤ) * d.dilation_w + (x : ℤ) * d.stride_w) d.width then
            im (imOff + (ir + (y : ℤ) * d.stride_h) * d.width +
              (-(d.pad_l : ℤ) + (kc : ℤ) * d.dilation_w + (x : ℤ) * d.stride_w))
          else 0)
        else 0 := by
  intro n
  induction n with
  | zero => intro ir y x hy hx; omega
  | succ n ih =>
      intro ir y x hy hx
      match y with
      | 0 =>
          simp only [im2colPadRows]
          rw [List.getD_append _ _ _ _ (by
            split_ifs with h
            · rw [im2colPadCols_length]
              omega
            · rw [List.length_replicate]
              omega)]
          rw [show (0 : ℕ) * outWn d + x = x by omega]
          rw [show ir + ((0 : ℕ) : ℤ) * d.stride_h = ir by norm_num]
          by_cases h : is_a_ge_zero_and_a_lt_b ir d.height = true
          · rw [if_pos h, if_pos h, im2colPadCols_getD _ _ _ _ _ _ x hx]
          · rw [if_neg h, if_neg h, getD_replicate _ _ hx]
      | y + 1 =>
          simp only [im2colPadRows]
          have hlen : (if is_a_ge_zero_and_a_lt_b ir d.height then
              im2colPadCols d im imOff ir (outWn d)
                (-(d.pad_l : ℤ) + kc * d.dilation_w)
            else List.replicate (outWn d) 0).length = outWn d := by
            split_ifs with h
            · rw [im2colPadCols_length]
            · rw [List.length_replicate]
          rw [List.getD_append_right _ _ _ _ (by rw [hlen]; calc
            outWn d ≤ (y + 1) * outWn d := by
              have : 1 * outWn d ≤ (y + 1) * outWn d := Nat.mul_le_mul_right _ (by omega)
              omega
            _ ≤ (y + 1) * outWn d + x := by omega)]
          rw [hlen]
          rw [show (y + 1) * outWn d + x - outWn d = y * outWn d + x by
            have : (y + 1) * outWn d = y * outWn d + outWn d := by ring
            omega]
          rw [ih (ir + d.stride_h) y x (by omega) hx]
          have e : ir + (d.stride_h : ℤ) + (y : ℤ) * d.stride_h =
              ir + ((y + 1 : ℕ) : ℤ) * d.stride_h := by
            push_cast
            ring
          rw [e]

theorem padKC_length (d : Desc) (im : Buf) (c kr : ℕ) :
    ((List.range d.kernel_w).flatMap fun kernel_col =>
      im2colPadRows d im ((c * (d.height * d.width) : ℕ)) kernel_col (outHn d)
        (-(d.pad_t : ℤ) + kr * d.dilation_h)).length = d.kernel_w * (outHn d * outWn d) :=
  length_flatMap_const d.kernel_w _
    (fun kc _ => im2colPadRows_length d im _ kc (outHn d) _)

theorem padKR_length (d : Desc) (im : Buf) (c : ℕ) :
    ((List.range d.kernel_h).flatMap fun kernel_row =>
      (List.range d.kernel_w).flatMap fun kernel_col =>
        im2colPadRows d im ((c * (d.height * d.width) : ℕ)) kernel_col (outHn d)
          (-(d.pad_t : ℤ) + kernel_row * d.dilation_h)).length =
      d.kernel_h * (d.kernel_w * (outHn d * outWn d)) :=
  length_flatMap_const d.kernel_h _ (fun kr _ => padKC_length d im c kr)

theorem im2colNCHWpadList_length (d : Desc) (im : Buf) :
    (im2colNCHWpadList d im).length =
      d.channels * d.kernel_h * d.kernel_w * (outHn d * outWn d) := by
  unfold im2colNCHWpadList
  rw [length_flatMap_const d.channels _ (fun c _ => padKR_length d im c)]
  ring

theorem im2colNCHWpadList_getD (d : Desc) (im : Buf) {c kr kc y x : ℕ}
    (hc : c < d.channels) (hkr : kr < d.kernel_h) (hkc : kc < d.kernel_w)
    (hy : y < outHn d) (hx : x < outWn d) :
    (im2colNCHWpadList d im).getD
        ((((c * d.kernel_h + kr) * d.kernel_w + kc) * outHn d + y) * outWn d + x) 0 =
      if is_a_ge_zero_and_a_lt_b
          (-(d.pad_t : ℤ) + (kr : ℤ) * d.dilation_h + (y : ℤ) * d.stride_h) d.height then
        (if is_a_ge_zero_and_a_lt_b
            (-(d.pad_l : ℤ) + (kc : ℤ) * d.dilation_w + (x : ℤ) * d.stride_w) d.width then
          im (((c * (d.height * d.width) : ℕ) : ℤ) +
            (-(d.pad_t : ℤ) + (kr : ℤ) * d.dilation_h + (y : ℤ) * d.stride_h) * d.width +
            (-(d.pad_l : ℤ) + (kc : ℤ) * d.dilation_w + (x : ℤ) * d.stride_w))
        else 0)
      else 0 := by
  unfold im2colNCHWpadList
  have hyx := yx_lt hy hx
  have hr2 : kc * (outHn d * outWn d) + (y * outWn d + x) < d.kernel_w * (outHn d * outWn d) :=
    flat_lt hkc hyx
  have hr1 : kr * (d.kernel_w * (outHn d * outWn d)) +
      (kc * (outHn d * outWn d) + (y * outWn d + x)) <
      d.kernel_h * (d.kernel_w * (outHn d * outWn d)) := flat_lt hkr hr2
  have e1 : (((c * d.kernel_h + kr) * d.kernel_w + kc) * outHn d + y) * outWn d + x
      = c * (d.kernel_h * (d.kernel_w * (outHn d * outWn d))) +
        (kr * (d.kernel_w * (outHn d * outWn d)) +
          (kc * (outHn d * outWn d) + (y * outWn d + x))) := by ring
  rw [e1]
  rw [getD_flatMap_range 0 _ (fun c2 _ => padKR_length d im c2) hc hr1]
  rw [getD_flatMap_range 0 _ (fun kr2 _ => padKC_length d im c kr2) hkr hr2]
  rw [getD_flatMap_range 0 _
    (fun kc2 _ => im2colPadRows_length d im _ kc2 (outHn d) _) hkc hyx]
  rw [im2colPadRows_getD d im _ kc (outHn d) _ y x hy hx]

theorem mod_mul_div (k m1 m2 : ℕ) : k % (m1 * m2) / m2 = k / m2 % m1 := by
  rw [Nat.mul_comm m1 m2]
  exact Nat.mod_mul_right_div_self k m2 m1

theorem mod_mul_mod (k m1 m2 : ℕ) : k % (m1 * m2) % m2 = k % m2 :=
  Nat.mod_mod_of_dvd k (dvd_mul_left m2 m1)

theorem im2colNCHWfast_value (d : Desc) (im col : Buf) {k y x : ℕ}
    (hk : k < d.channels * d.kernel_h * d.kernel_w) (hy : y < outHn d) (hx : x < outWn d) :
    im2colNCHWfast d im col (((k * outHn d + y) * outWn d + x : ℕ) : ℤ) =
      im ((k / (d.kernel_h * d.kernel_w) * (d.height * d.width) +
        ((y * d.stride_h + k % (d.kernel_h * d.kernel_w) / d.kernel_w) * d.width +
          k % (d.kernel_h * d.kernel_w) % d.kernel_w + x * d.stride_w) : ℕ)) := by
  have hyx := yx_lt hy hx
  have hplt := flat_lt hk hyx
  have hv := (im2colNCHWfast_writes d im).value col (k * (outHn d * outWn d) + (y * outWn d + x)) hplt
  rw [zero_add] at hv
  rw [show (((k * outHn d + y) * outWn d + x : ℕ) : ℤ) =
    ((k * (outHn d * outWn d) + (y * outWn d + x) : ℕ) : ℤ) by congr 1; ring]
  rw [hv, encode_div hyx, encode_mod hyx, encode_div hx, encode_mod hx]

theorem im2colNCHWbase_value (d : Desc) (im col : Buf) {k y x : ℕ}
    (hk : k < d.channels * d.kernel_h * d.kernel_w) (hy : y < outHn d) (hx : x < outWn d) :
    im2colNCHWbase d im col (((k * outHn d + y) * outWn d + x : ℕ) : ℤ) =
      im2colVal d im k y x := by
  have hyx := yx_lt hy hx
  have hplt := flat_lt hk hyx
  have hv := (im2colNCHWbase_writes d im).value col (k * (outHn d * outWn d) + (y * outWn d + x)) hplt
  rw [zero_add] at hv
  rw [show (((k * outHn d + y) * outWn d + x : ℕ) : ℤ) =
    ((k * (outHn d * outWn d) + (y * outWn d + x) : ℕ) : ℤ) by congr 1; ring]
  rw [hv, encode_div hyx, encode_mod hyx, encode_div hx, encode_mod hx]

/-- Under the no-padding/no-dilation predicate every mapped coordinate is in
range, and the canonical target is exactly the fast-path source offset. -/
theorem colTarget_eq_fast {d : Desc} (v : Valid d) (hP : noPadNoDil d) {k y x : ℕ}
    (hk : k < d.channels * d.kernel_h * d.kernel_w) (hy : y < outHn d) (hx : x < outWn d) :
    colTarget d k y x = some (((k / (d.kernel_h * d.kernel_w) * (d.height * d.width) +
      ((y * d.stride_h + k % (d.kernel_h * d.kernel_w) / d.kernel_w) * d.width +
        k % (d.kernel_h * d.kernel_w) % d.kernel_w + x * d.stride_w) : ℕ) : ℤ)) := by
  obtain ⟨hdh, hdw, hpl, hpr, hpt, hpb⟩ := hP
  have hKH : 1 ≤ d.kernel_h := v.kh
  have hKW : 1 ≤ d.kernel_w := v.kw
  have hnumH : numHn d = d.height - d.kernel_h := by
    unfold numHn dkernelHn
    rw [hdh, hpt, hpb]
    omega
  have hnumW : numWn d = d.width - d.kernel_w := by
    unfold numWn dkernelWn
    rw [hdw, hpl, hpr]
    omega
  have hHK : d.kernel_h ≤ d.height := by
    have := dkernelHn_le v
    unfold dkernelHn at this
    rw [hdh, hpt, hpb] at this
    omega
  have hWK : d.kernel_w ≤ d.width := by
    have := dkernelWn_le v
    unfold dkernelWn at this
    rw [hdw, hpl, hpr] at this
    omega
  have hoffH : k / d.kernel_w % d.kernel_h < d.kernel_h := Nat.mod_lt _ (by omega)
  have hoffW : k % d.kernel_w < d.kernel_w := Nat.mod_lt _ (by omega)
  have hy1 : y * d.stride_h ≤ (outHn d - 1) * d.stride_h :=
    Nat.mul_le_mul_right _ (by omega)
  have hx1 : x * d.stride_w ≤ (outWn d - 1) * d.stride_w :=
    Nat.mul_le_mul_right _ (by omega)
  have hy2 := outHn_pred_mul v
  have hx2 := outWn_pred_mul v
  have hihH : y * d.stride_h + k / d.kernel_w % d.kernel_h < d.height := by omega
  have hiwW : x * d.stride_w + k % d.kernel_w < d.width := by omega
  rw [show colTarget d k y x = some ((((k / d.kernel_h / d.kernel_w * d.height : ℕ) : ℤ) +
      (((y * d.stride_h : ℕ) : ℤ) - d.pad_t +
        ((k / d.kernel_w % d.kernel_h * d.dilation_h : ℕ) : ℤ))) * d.width +
      (((x * d.stride_w : ℕ) : ℤ) - d.pad_l + ((k % d.kernel_w * d.dilation_w : ℕ) : ℤ)))
    from by
      unfold colTarget
      exact if_pos (by
        refine ⟨?_, ?_, ?_, ?_⟩
        · rw [hdh, hpt]
          omega
        · rw [hdh, hpt]
          omega
        · rw [hdw, hpl]
          omega
        · rw [hdw, hpl]
          omega)]
  refine congrArg some ?_
  rw [mod_mul_div, mod_mul_mod, hdh, hdw, hpt, hpl,
    show k / (d.kernel_h * d.kernel_w) = k / d.kernel_h / d.kernel_w from
      (Nat.div_div_eq_div_mul k d.kernel_h d.kernel_w).symm]
  push_cast
  ring

/-- Under the no-padding/no-dilation predicate the fast-path source sample
is exactly the canonical column value. -/
theorem fastVal_eq_im2colVal {d : Desc} (v : Valid d) (hP : noPadNoDil d) (im : Buf) {k y x : ℕ}
    (hk : k < d.channels * d.kernel_h * d.kernel_w) (hy : y < outHn d) (hx : x < outWn d) :
    im ((k / (d.kernel_h * d.kernel_w) * (d.height * d.width) +
      ((y * d.stride_h + k % (d.kernel_h * d.kernel_w) / d.kernel_w) * d.width +
        k % (d.kernel_h * d.kernel_w) % d.kernel_w + x * d.stride_w) : ℕ)) =
      im2colVal d im k y x := by
  unfold im2colVal
  rw [colTarget_eq_fast v hP hk hy hx]

/-- Row-axis range bound for the equal-padding scan: under a valid, 32-bit
descriptor the scanned input_row values stay inside signed 32-bit range. -/
theorem padRowBound {d : Desc} (v : Valid d) (hF : Fits d) {kr y : ℕ}
    (hkr : kr < d.kernel_h) (hy : y < outHn d) :
    kr * d.dilation_h + y * d.stride_h < d.height + d.pad_b + d.pad_t := by
  have h1 : kr * d.dilation_h ≤ (d.kernel_h - 1) * d.dilation_h :=
    Nat.mul_le_mul_right _ (by omega)
  have h2 : y * d.stride_h ≤ (outHn d - 1) * d.stride_h :=
    Nat.mul_le_mul_right _ (by omega)
  have h3 := outHn_pred_mul v
  have h4 := dkernelHn_le v
  have h5 : numHn d = d.height + d.pad_b + d.pad_t - dkernelHn d := rfl
  have h6 : dkernelHn d = d.dilation_h * (d.kernel_h - 1) + 1 := rfl
  have h7 : d.dilation_h * (d.kernel_h - 1) = (d.kernel_h - 1) * d.dilation_h := Nat.mul_comm _ _
  omega

theorem padColBound {d : Desc} (v : Valid d) (hF : Fits d) {kc x : ℕ}
    (hkc : kc < d.kernel_w) (hx : x < outWn d) :
    kc * d.dilation_w + x * d.stride_w < d.width + d.pad_l + d.pad_r := by
  have h1 : kc * d.dilation_w ≤ (d.kernel_w - 1) * d.dilation_w :=
    Nat.mul_le_mul_right _ (by omega)
  have h2 : x * d.stride_w ≤ (outWn d - 1) * d.stride_w :=
    Nat.mul_le_mul_right _ (by omega)
  have h3 := outWn_pred_mul v
  have h4 := dkernelWn_le v
  have h5 : numWn d = d.width + d.pad_l + d.pad_r - dkernelWn d := rfl
  have h6 : dkernelWn d = d.dilation_w * (d.kernel_w - 1) + 1 := rfl
  have h7 : d.dilation_w * (d.kernel_w - 1) = (d.kernel_w - 1) * d.dilation_w := Nat.mul_comm _ _
  omega

/-- The unsigned row test of the equal-padding scan agrees with the signed
range test for every scanned coordinate. -/
theorem padRow_is_a_iff {d : Desc} (v : Valid d) (hF : Fits d) {kr y : ℕ}
    (hkr : kr < d.kernel_h) (hy : y < outHn d) :
    (is_a_ge_zero_and_a_lt_b
        (-(d.pad_t : ℤ) + ((kr * d.dilation_h : ℕ) : ℤ) + ((y * d.stride_h : ℕ) : ℤ))
        d.height = true) ↔
      0 ≤ -(d.pad_t : ℤ) + ((kr * d.dilation_h : ℕ) : ℤ) + ((y * d.stride_h : ℕ) : ℤ) ∧
        -(d.pad_t : ℤ) + ((kr * d.dilation_h : ℕ) : ℤ) + ((y * d.stride_h : ℕ) : ℤ) <
          (d.height : ℤ) := by
  have hb := padRowBound v hF hkr hy
  have hf := hF.1
  apply is_a_ge_iff
  · have h1 : (0 : ℤ) ≤ ((kr * d.dilation_h : ℕ) : ℤ) := by positivity
    have h2 : (0 : ℤ) ≤ ((y * d.stride_h : ℕ) : ℤ) := by positivity
    omega
  · omega
  · positivity
  · omega

theorem padCol_is_a_iff {d : Desc} (v : Valid d) (hF : Fits d) {kc x : ℕ}
    (hkc : kc < d.kernel_w) (hx : x < outWn d) :
    (is_a_ge_zero_and_a_lt_b
        (-(d.pad_l : ℤ) + ((kc * d.dilation_w : ℕ) : ℤ) + ((x * d.stride_w : ℕ) : ℤ))
        d.width = true) ↔
      0 ≤ -(d.pad_l : ℤ) + ((kc * d.dilation_w : ℕ) : ℤ) + ((x * d.stride_w : ℕ) : ℤ) ∧
        -(d.pad_l : ℤ) + ((kc * d.dilation_w : ℕ) : ℤ) + ((x * d.stride_w : ℕ) : ℤ) <
          (d.width : ℤ) := by
  have hb := padColBound v hF hkc hx
  have hf := hF.2
  apply is_a_ge_iff
  · have h1 : (0 : ℤ) ≤ ((kc * d.dilation_w : ℕ) : ℤ) := by positivity
    have h2 : (0 : ℤ) ≤ ((x * d.stride_w : ℕ) : ℤ) := by positivity
    omega
  · omega
  · positivity
  · omega

/-- The values scanned by the equal-padding fast path agree with the
canonical column values. -/
theorem padVal_eq_im2colVal {d : Desc} (v : Valid d) (hF : Fits d) (im : Buf)
    {c kr kc y x : ℕ} (hc : c < d.channels) (hkr : kr < d.kernel_h) (hkc : kc < d.kernel_w)
    (hy : y < outHn d) (hx : x < outWn d) :
    (if is_a_ge_zero_and_a_lt_b
        (-(d.pad_t : ℤ) + (kr : ℤ) * d.dilation_h + (y : ℤ) * d.stride_h) d.height then
      (if is_a_ge_zero_and_a_lt_b
          (-(d.pad_l : ℤ) + (kc : ℤ) * d.dilation_w + (x : ℤ) * d.stride_w) d.width then
        im (((c * (d.height * d.width) : ℕ) : ℤ) +
          (-(d.pad_t : ℤ) + (kr : ℤ) * d.dilation_h + (y : ℤ) * d.stride_h) * d.width +
          (-(d.pad_l : ℤ) + (kc : ℤ) * d.dilation_w + (x : ℤ) * d.stride_w))
      else 0)
    else 0) = im2colVal d im ((c * d.kernel_h + kr) * d.kernel_w + kc) y x := by
  have hd1 : ((c * d.kernel_h + kr) * d.kernel_w + kc) % d.kernel_w = kc := encode_mod hkc
  have hd2 : ((c * d.kernel_h + kr) * d.kernel_w + kc) / d.kernel_w = c * d.kernel_h + kr :=
    encode_div hkc
  have hd3 : ((c * d.kernel_h + kr) * d.kernel_w + kc) / d.kernel_w % d.kernel_h = kr := by
    rw [hd2]
    exact encode_mod hkr
  have hd4 : ((c * d.kernel_h + kr) * d.kernel_w + kc) / d.kernel_h / d.kernel_w = c := by
    rw [Nat.div_div_eq_div_mul]
    rw [show (c * d.kernel_h + kr) * d.kernel_w + kc =
      c * (d.kernel_h * d.kernel_w) + (kr * d.kernel_w + kc) by ring]
    exact encode_div (flat_lt hkr hkc)
  have ecast1 : (kr : ℤ) * (d.dilation_h : ℤ) = ((kr * d.dilation_h : ℕ) : ℤ) := by
    push_cast; ring
  have ecast2 : (y : ℤ) * (d.stride_h : ℤ) = ((y * d.stride_h : ℕ) : ℤ) := by
    push_cast; ring
  have ecast3 : (kc : ℤ) * (d.dilation_w : ℤ) = ((kc * d.dilation_w : ℕ) : ℤ) := by
    push_cast; ring
  have ecast4 : (x : ℤ) * (d.stride_w : ℤ) = ((x * d.stride_w : ℕ) : ℤ) := by
    push_cast; ring
  rw [ecast1, ecast2, ecast3, ecast4]
  rw [im2colVal_eq_ite, hd3, hd1, hd4]
  simp only [padRow_is_a_iff v hF hkr hy, padCol_is_a_iff v hF hkc hx]
  split_ifs <;>
    first
      | rfl
      | exact congrArg im (by push_cast; ring)
      | (exfalso; omega)

/-- Bounds of the flat-position decode. -/
theorem decode_bounds {d : Desc} (v : Valid d) {p : ℕ}
    (hp : p < d.channels * d.kernel_h * d.kernel_w * (outHn d * outWn d)) :
    p / (outHn d * outWn d) < d.channels * d.kernel_h * d.kernel_w ∧
    p % (outHn d * outWn d) / outWn d < outHn d ∧
    p % (outHn d * outWn d) % outWn d < outWn d := by
  have hM : 0 < outHn d * outWn d :=
    Nat.mul_pos (by have := outHn_pos v; omega) (by have := outWn_pos v; omega)
  have hOW : 0 < outWn d := by have := outWn_pos v; omega
  refine ⟨?_, ?_, ?_⟩
  · rw [Nat.div_lt_iff_lt_mul hM]
    exact hp
  · rw [Nat.div_lt_iff_lt_mul hOW]
    exact Nat.mod_lt _ hM
  · exact Nat.mod_lt _ hOW

/-- The equal-padding write list evaluated at a flat position is the
canonical column value at the decoded entry. -/
theorem im2colNCHWpadList_getD_flat {d : Desc} (v : Valid d) (hF : Fits d) (im : Buf) {p : ℕ}
    (hp : p < d.channels * d.kernel_h * d.kernel_w * (outHn d * outWn d)) :
    (im2colNCHWpadList d im).getD p 0 =
      im2colVal d im (p / (outHn d * outWn d)) (p % (outHn d * outWn d) / outWn d)
        (p % (outHn d * outWn d) % outWn d) := by
  obtain ⟨hk_lt, hy_lt, hx_lt⟩ := decode_bounds v hp
  have hKHW : 0 < d.kernel_h * d.kernel_w :=
    Nat.mul_pos (by have := v.kh; omega) (by have := v.kw; omega)
  have hc_lt : p / (outHn d * outWn d) / (d.kernel_h * d.kernel_w) < d.channels := by
    rw [Nat.div_lt_iff_lt_mul hKHW]
    calc p / (outHn d * outWn d) < d.channels * d.kernel_h * d.kernel_w := hk_lt
    _ = d.channels * (d.kernel_h * d.kernel_w) := by ring
  have hkr_lt : p / (outHn d * outWn d) % (d.kernel_h * d.kernel_w) / d.kernel_w < d.kernel_h := by
    rw [Nat.div_lt_iff_lt_mul (by have := v.kw; omega)]
    calc p / (outHn d * outWn d) % (d.kernel_h * d.kernel_w) < d.kernel_h * d.kernel_w :=
      Nat.mod_lt _ hKHW
    _ = d.kernel_h * d.kernel_w := rfl
  have hkc_lt : p / (outHn d * outWn d) % (d.kernel_h * d.kernel_w) % d.kernel_w < d.kernel_w :=
    Nat.mod_lt _ (by have := v.kw; omega)
  have hinner : (p / (outHn d * outWn d) / (d.kernel_h * d.kernel_w) * d.kernel_h +
      p / (outHn d * outWn d) % (d.kernel_h * d.kernel_w) / d.kernel_w) * d.kernel_w +
      p / (outHn d * outWn d) % (d.kernel_h * d.kernel_w) % d.kernel_w
      = p / (outHn d * outWn d) := by
    calc (p / (outHn d * outWn d) / (d.kernel_h * d.kernel_w) * d.kernel_h +
        p / (outHn d * outWn d) % (d.kernel_h * d.kernel_w) / d.kernel_w) * d.kernel_w +
        p / (outHn d * outWn d) % (d.kernel_h * d.kernel_w) % d.kernel_w
        = p / (outHn d * outWn d) / (d.kernel_h * d.kernel_w) * (d.kernel_h * d.kernel_w) +
          p / (outHn d * outWn d) % (d.kernel_h * d.kernel_w) / d.kernel_w * d.kernel_w +
          p / (outHn d * outWn d) % (d.kernel_h * d.kernel_w) % d.kernel_w := by ring
    _ = p / (outHn d * outWn d) := kernel_decomp _ _ _
  have hpos : p = (((p / (outHn d * outWn d) / (d.kernel_h * d.kernel_w) * d.kernel_h +
      p / (outHn d * outWn d) % (d.kernel_h * d.kernel_w) / d.kernel_w) * d.kernel_w +
      p / (outHn d * outWn d) % (d.kernel_h * d.kernel_w) % d.kernel_w) * outHn d +
      p % (outHn d * outWn d) / outWn d) * outWn d + p % (outHn d * outWn d) % outWn d := by
    rw [hinner]
    have h5 := Nat.div_add_mod' p (outHn d * outWn d)
    have h6 := Nat.div_add_mod' (p % (outHn d * outWn d)) (outWn d)
    conv_lhs => rw [← h5]
    conv_lhs => rw [← h6]
    ring
  conv_lhs => rw [hpos]
  rw [im2colNCHWpadList_getD d im hc_lt hkr_lt hkc_lt hy_lt hx_lt]
  rw [padVal_eq_im2colVal v hF im hc_lt hkr_lt hkc_lt hy_lt hx_lt]
  rw [hinner]

/-- The equal-padding fast path and the baseline agree on every buffer
entry. -/
theorem im2colPad_base_eq {d : Desc} (v : Valid d) (hF : Fits d) (im col : Buf) (j : ℤ) :
    im2colNCHWpad d im col j = im2colNCHWbase d im col j := by
  have hlenL := im2colNCHWpadList_length d im
  have hpadW := writesInterval_writeRun (im2colNCHWpadList d im)
  have hbaseW := im2colNCHWbase_writes d im
  by_cases hj : 0 ≤ j ∧
      j < ((d.channels * d.kernel_h * d.kernel_w * (outHn d * outWn d) : ℕ) : ℤ)
  · have h0 : im2colNCHWpad d im col j = (im2colNCHWpadList d im).getD j.toNat 0 :=
      hpadW.value0 col hj.1 (by rw [hlenL]; exact hj.2)
    have h1 := hbaseW.value0 col hj.1 hj.2
    rw [h0, h1]
    exact im2colNCHWpadList_getD_flat v hF im (by omega)
  · have h0 : im2colNCHWpad d im col j = col j :=
      hpadW.outside0 col (by rw [hlenL]; omega)
    have h1 := hbaseW.outside0 col hj
    rw [h0, h1]

/-- The zero-padding/no-dilation fast path and the baseline agree on every
buffer entry whenever the first dispatch predicate holds. -/
theorem im2colFast_base_eq {d : Desc} (v : Valid d) (hP : noPadNoDil d) (im col : Buf) (j : ℤ) :
    im2colNCHWfast d im col j = im2colNCHWbase d im col j := by
  have hfastW := im2colNCHWfast_writes d im
  have hbaseW := im2colNCHWbase_writes d im
  by_cases hj : 0 ≤ j ∧
      j < ((d.channels * d.kernel_h * d.kernel_w * (outHn d * outWn d) : ℕ) : ℤ)
  · obtain ⟨hk_lt, hy_lt, hx_lt⟩ := decode_bounds v (p := j.toNat) (by omega)
    rw [hfastW.value0 col hj.1 hj.2, hbaseW.value0 col hj.1 hj.2]
    exact fastVal_eq_im2colVal v hP im hk_lt hy_lt hx_lt
  · rw [hfastW.outside0 col hj, hbaseW.outside0 col hj]

theorem d0_valid : Valid d0 := by constructor <;> decide

theorem d0_fits : Fits d0 := ⟨by decide, by decide⟩

theorem d1_valid : Valid d1 := by constructor <;> decide

theorem d1_fits : Fits d1 := ⟨by decide, by decide⟩

theorem d2_valid : Valid d2 := by constructor <;> decide

theorem d2_fits : Fits d2 := ⟨by decide, by decide⟩

/-- C1: for every valid window descriptor and every input signal buffer, the
three algorithmic paths of the NCHW forward Im2col - the
no-dilation/zero-padding block-copy path, the equal-padding incremental-scan
path, and the general per-element path - produce exactly the same column
buffer whenever their dispatch predicates hold; in particular, for
dilation_h = dilation_w = 1 and all four pads = 0, where all three
predicates hold, all three paths produce identical output at every buffer
offset. -/
theorem c1_im2col_nchw_path_equivalence {d : Desc} (v : Valid d) (hF : Fits d)
    (im col : Buf) :
    (eqPad d → ∀ j : ℤ, im2colNCHWpad d im col j = im2colNCHWbase d im col j) ∧
    (noPadNoDil d → ∀ j : ℤ,
      im2colNCHWfast d im col j = im2colNCHWbase d im col j ∧
      im2colNCHWfast d im col j = im2colNCHWpad d im col j ∧
      im2colNCHWpad d im col j = im2colNCHWbase d im col j) := by
  refine ⟨fun _ j => im2colPad_base_eq v hF im col j, fun hP j => ?_⟩
  have h1 := im2colFast_base_eq v hP im col j
  have h2 := im2colPad_base_eq v hF im col j
  exact ⟨h1, by rw [h1, h2], h2⟩

theorem c1_witness :
    im2colNCHWfast d0 S0 zB 7 = im2colNCHWbase d0 S0 zB 7 ∧
    im2colNCHWfast d0 S0 zB 7 = im2colNCHWpad d0 S0 zB 7 :=
  ⟨((@c1_im2col_nchw_path_equivalence d0 d0_valid d0_fits S0 zB).2 (by decide) 7).1,
   ((@c1_im2col_nchw_path_equivalence d0 d0_valid d0_fits S0 zB).2 (by decide) 7).2.1⟩

/-!  Accumulation machinery for the Col2im paths.  -/

theorem applyAdds_eq (ops : List (ℤ × ℤ)) (b : Buf) (col : Buf) (j : ℤ) :
    applyAdds b ops col j =
      b j + ((ops.filter fun e => decide (e.2 = j)).map fun e => col e.1).sum := by
  induction ops generalizing b with
  | nil => simp [applyAdds]
  | cons e t ih =>
      rw [show applyAdds b (e :: t) col = applyAdds (accum b e.2 (col e.1)) t col from rfl]
      rw [ih]
      by_cases he : e.2 = j
      · rw [List.filter_cons_of_pos (by simpa using he), List.map_cons, List.sum_cons]
        have hacc : accum b e.2 (col e.1) j = b j + col e.1 := by
          rw [accum, he, Function.update_same]
        rw [hacc]
        ring
      · rw [List.filter_cons_of_neg (by simpa using he)]
        have hacc : accum b e.2 (col e.1) j = b j := by
          rw [accum, Function.update_apply, if_neg (fun hh => he hh.symm)]
        rw [hacc]

theorem contrib_append (l1 l2 : List (ℤ × ℤ)) (col : Buf) (j : ℤ) :
    (((l1 ++ l2).filter fun e => decide (e.2 = j)).map fun e => col e.1).sum =
      ((l1.filter fun e => decide (e.2 = j)).map fun e => col e.1).sum +
      ((l2.filter fun e => decide (e.2 = j)).map fun e => col e.1).sum := by
  rw [List.filter_append, List.map_append, List.sum_append]

theorem contrib_flatMap {α : Type} (l : List α) (f : α → List (ℤ × ℤ)) (col : Buf) (j : ℤ) :
    (((l.flatMap f).filter fun e => decide (e.2 = j)).map fun e => col e.1).sum =
      (l.map fun a => (((f a).filter fun e => decide (e.2 = j)).map fun e => col e.1).sum).sum := by
  induction l with
  | nil => simp
  | cons a t ih =>
      rw [List.flatMap_cons, contrib_append, ih, List.map_cons, List.sum_cons]

theorem contrib_single (e : ℤ × ℤ) (col : Buf) (j : ℤ) :
    ((([e] : List (ℤ × ℤ)).filter fun e => decide (e.2 = j)).map fun e => col e.1).sum =
      if e.2 = j then col e.1 else 0 := by
  by_cases he : e.2 = j
  · rw [if_pos he, List.filter_cons_of_pos (by simpa using he)]
    simp
  · rw [if_neg he, List.filter_cons_of_neg (by simpa using he)]
    simp

theorem contrib_nil (col : Buf) (j : ℤ) :
    ((([] : List (ℤ × ℤ)).filter fun e => decide (e.2 = j)).map fun e => col e.1).sum = 0 := by
  simp

theorem contrib_map_range (n : ℕ) (g : ℕ → ℤ × ℤ) (col : Buf) (j : ℤ) :
    ((((List.range n).map g).filter fun e => decide (e.2 = j)).map fun e => col e.1).sum =
      ((List.range n).map fun x => if (g x).2 = j then col (g x).1 else 0).sum := by
  induction n with
  | zero => simp
  | succ n ih =>
      rw [List.range_succ, List.map_append, contrib_append, ih]
      rw [List.map_append, List.sum_append]
      congr 1
      simp only [List.map_cons, List.map_nil]
      rw [contrib_single]
      simp

theorem sum_map_range_shift (n : ℕ) (f : ℕ → ℚ) :
    ((List.range (n + 1)).map f).sum = f 0 + ((List.range n).map fun x => f (x + 1)).sum := by
  rw [List.range_succ_eq_map, List.map_cons, List.sum_cons, List.map_map]
  rfl

theorem sum_map_range_mul (a b : ℕ) (g : ℕ → ℚ) :
    ((List.range (a * b)).map g).sum =
      ((List.range a).map fun i => ((List.range b).map fun t => g (i * b + t)).sum).sum := by
  induction a with
  | zero => simp
  | succ a ih =>
      have h1 : (a + 1) * b = a * b + b := by ring
      rw [h1, List.range_add, List.map_append, List.sum_append, ih]
      rw [List.range_succ, List.map_append, List.sum_append]
      congr 1
      rw [List.map_map]
      simp only [List.map_cons, List.map_nil, List.sum_cons, List.sum_nil, add_zero]
      rfl

/-- The Col2im zero-padding/no-dilation fast path accumulates exactly the
canonical contributions on top of the zero-filled image. -/
theorem col2imNCHWfast_char {d : Desc} (v : Valid d) (hP : noPadNoDil d)
    (col im0 : Buf) (j : ℤ) :
    col2imNCHWfast d col im0 j =
      zeroFill im0 (d.height * d.width * d.channels) j + col2imAcc d col j := by
  rw [show col2imNCHWfast d col im0 =
    applyAdds (zeroFill im0 (d.height * d.width * d.channels)) (col2imFastOps d) col from rfl]
  rw [applyAdds_eq]
  congr 1
  simp only [col2imFastOps, col2imAcc]
  rw [contrib_flatMap]
  refine congrArg List.sum (List.map_congr_left ?_)
  intro k hk
  have hk2 : k < d.channels * d.kernel_h * d.kernel_w := List.mem_range.mp hk
  rw [contrib_flatMap]
  refine congrArg List.sum (List.map_congr_left ?_)
  intro y hy
  have hy2 : y < outHn d := List.mem_range.mp hy
  have hdst : (k / (d.kernel_h * d.kernel_w) * (d.kernel_h * d.kernel_w * outHn d * outWn d) +
      k % (d.kernel_h * d.kernel_w) / d.kernel_w * (d.kernel_w * outHn d * outWn d) +
      k % (d.kernel_h * d.kernel_w) % d.kernel_w * (outHn d * outWn d))
      = k * (outHn d * outWn d) := by
    have h2 : (k / (d.kernel_h * d.kernel_w) * (d.kernel_h * d.kernel_w * outHn d * outWn d) +
        k % (d.kernel_h * d.kernel_w) / d.kernel_w * (d.kernel_w * outHn d * outWn d) +
        k % (d.kernel_h * d.kernel_w) % d.kernel_w * (outHn d * outWn d))
        = (k / (d.kernel_h * d.kernel_w) * (d.kernel_h * d.kernel_w) +
          k % (d.kernel_h * d.kernel_w) / d.kernel_w * d.kernel_w +
          k % (d.kernel_h * d.kernel_w) % d.kernel_w) * (outHn d * outWn d) := by ring
    rw [h2, kernel_decomp]
  by_cases hsw : d.stride_w = 1
  · rw [if_pos hsw, contrib_map_range]
    refine congrArg List.sum (List.map_congr_left ?_)
    intro x hx
    have hx2 : x < outWn d := List.mem_range.mp hx
    rw [colTarget_eq_fast v hP hk2 hy2 hx2]
    simp only [Option.some.injEq]
    rw [show ((k / (d.kernel_h * d.kernel_w) * (d.height * d.width) : ℕ) : ℤ) +
        (((y * d.stride_h + k % (d.kernel_h * d.kernel_w) / d.kernel_w) * d.width +
          k % (d.kernel_h * d.kernel_w) % d.kernel_w : ℕ) : ℤ) + (x : ℤ) =
        ((k / (d.kernel_h * d.kernel_w) * (d.height * d.width) +
          ((y * d.stride_h + k % (d.kernel_h * d.kernel_w) / d.kernel_w) * d.width +
            k % (d.kernel_h * d.kernel_w) % d.kernel_w + x * d.stride_w) : ℕ) : ℤ) from by
      rw [hsw]; push_cast; ring]
    rw [show ((k / (d.kernel_h * d.kernel_w) * (d.kernel_h * d.kernel_w * outHn d * outWn d) +
        k % (d.kernel_h * d.kernel_w) / d.kernel_w * (d.kernel_w * outHn d * outWn d) +
        k % (d.kernel_h * d.kernel_w) % d.kernel_w * (outHn d * outWn d) : ℕ) : ℤ) +
        ((y * outWn d : ℕ) : ℤ) + (x : ℤ) =
        (((k * outHn d + y) * outWn d + x : ℕ) : ℤ) from by
      rw [show ((k / (d.kernel_h * d.kernel_w) * (d.kernel_h * d.kernel_w * outHn d * outWn d) +
        k % (d.kernel_h * d.kernel_w) / d.kernel_w * (d.kernel_w * outHn d * outWn d) +
        k % (d.kernel_h * d.kernel_w) % d.kernel_w * (outHn d * outWn d) : ℕ)) = k * (outHn d * outWn d) from hdst]
      push_cast; ring]
  · rw [if_neg hsw, contrib_map_range]
    refine congrArg List.sum (List.map_congr_left ?_)
    intro x hx
    have hx2 : x < outWn d := List.mem_range.mp hx
    rw [colTarget_eq_fast v hP hk2 hy2 hx2]
    simp only [Option.some.injEq]
    rw [show ((k / (d.kernel_h * d.kernel_w) * (d.height * d.width) : ℕ) : ℤ) +
        (((y * d.stride_h + k % (d.kernel_h * d.kernel_w) / d.kernel_w) * d.width +
          k % (d.kernel_h * d.kernel_w) % d.kernel_w + x * d.stride_w : ℕ) : ℤ) =
        ((k / (d.kernel_h * d.kernel_w) * (d.height * d.width) +
          ((y * d.stride_h + k % (d.kernel_h * d.kernel_w) / d.kernel_w) * d.width +
            k % (d.kernel_h * d.kernel_w) % d.kernel_w + x * d.stride_w) : ℕ) : ℤ) from by
      push_cast; ring]
    rw [show ((k / (d.kernel_h * d.kernel_w) * (d.kernel_h * d.kernel_w * outHn d * outWn d) +
        k % (d.kernel_h * d.kernel_w) / d.kernel_w * (d.kernel_w * outHn d * outWn d) +
        k % (d.kernel_h * d.kernel_w) % d.kernel_w * (outHn d * outWn d) : ℕ) : ℤ) +
        ((y * outWn d + x : ℕ) : ℤ) =
        (((k * outHn d + y) * outWn d + x : ℕ) : ℤ) from by
      rw [show ((k / (d.kernel_h * d.kernel_w) * (d.kernel_h * d.kernel_w * outHn d * outWn d) +
        k % (d.kernel_h * d.kernel_w) / d.kernel_w * (d.kernel_w * outHn d * outWn d) +
        k % (d.kernel_h * d.kernel_w) % d.kernel_w * (outHn d * outWn d) : ℕ)) = k * (outHn d * outWn d) from hdst]
      push_cast; ring]

/-- The Col2im fallback accumulates exactly the canonical contributions on
top of the zero-filled image. -/
theorem col2imNCHWbase_char (d : Desc) (col im0 : Buf) (j : ℤ) :
    col2imNCHWbase d col im0 j =
      zeroFill im0 (d.height * d.width * d.channels) j + col2imAcc d col j := by
  rw [show col2imNCHWbase d col im0 =
    applyAdds (zeroFill im0 (d.height * d.width * d.channels)) (col2imBaseOps d) col from rfl]
  rw [applyAdds_eq]
  congr 1
  simp only [col2imBaseOps, col2imAcc]
  rw [contrib_flatMap]
  refine congrArg List.sum (List.map_congr_left ?_)
  intro k hk
  rw [contrib_flatMap]
  refine congrArg List.sum (List.map_congr_left ?_)
  intro y hy
  rw [contrib_flatMap]
  refine congrArg List.sum (List.map_congr_left ?_)
  intro x hx
  by_cases hc : 0 ≤ (y : ℤ) * d.stride_h - d.pad_t +
        ((k / d.kernel_w % d.kernel_h : ℕ) : ℤ) * d.dilation_h ∧
      (y : ℤ) * d.stride_h - d.pad_t +
        ((k / d.kernel_w % d.kernel_h : ℕ) : ℤ) * d.dilation_h < d.height ∧
      0 ≤ (x : ℤ) * d.stride_w - d.pad_l + ((k % d.kernel_w : ℕ) : ℤ) * d.dilation_w ∧
      (x : ℤ) * d.stride_w - d.pad_l + ((k % d.kernel_w : ℕ) : ℤ) * d.dilation_w < d.width
  · rw [if_pos hc, contrib_single]
    rw [show colTarget d k y x =
      some ((((k / d.kernel_h / d.kernel_w * d.height : ℕ) : ℤ) +
        ((y : ℤ) * d.stride_h - d.pad_t +
          ((k / d.kernel_w % d.kernel_h : ℕ) : ℤ) * d.dilation_h)) * d.width +
        ((x : ℤ) * d.stride_w - d.pad_l + ((k % d.kernel_w : ℕ) : ℤ) * d.dilation_w)) from by
      unfold colTarget
      exact if_pos hc]
    simp only [Option.some.injEq]
  · rw [if_neg hc, contrib_nil]
    rw [show colTarget d k y x = none from by unfold colTarget; exact if_neg hc]
    simp

theorem col2imPadCols_snd (d : Desc) (imOff ir : ℤ) :
    ∀ (n : ℕ) (ic cur : ℤ), (col2imPadCols d imOff ir n ic cur).2 = cur + n := by
  intro n
  induction n with
  | zero => intro ic cur; simp [col2imPadCols]
  | succ n ih =>
      intro ic cur
      simp only [col2imPadCols]
      rw [ih]
      push_cast
      ring

theorem col2imPadRows_snd (d : Desc) (imOff : ℤ) (kc : ℕ) :
    ∀ (n : ℕ) (ir cur : ℤ),
      (col2imPadRows d imOff kc n ir cur).2 = cur + ((n * outWn d : ℕ) : ℤ) := by
  intro n
  induction n with
  | zero => intro ir cur; simp [col2imPadRows]
  | succ n ih =>
      intro ir cur
      simp only [col2imPadRows]
      by_cases h : is_a_ge_zero_and_a_lt_b ir d.height = true
      · rw [if_pos h, ih, col2imPadCols_snd]
        push_cast
        ring
      · rw [if_neg h, ih]
        push_cast
        ring

theorem col2imPadCols_contrib (d : Desc) (imOff ir : ℤ) (col : Buf) (j : ℤ) :
    ∀ (n : ℕ) (ic cur : ℤ),
      ((((col2imPadCols d imOff ir n ic cur).1).filter fun e => decide (e.2 = j)).map
        fun e => col e.1).sum =
      ((List.range n).map fun (x : ℕ) =>
        if is_a_ge_zero_and_a_lt_b (ic + (x : ℤ) * d.stride_w) d.width = true ∧
            imOff + ir * d.width + (ic + (x : ℤ) * d.stride_w) = j then
          col (cur + x)
        else 0).sum := by
  intro n
  induction n with
  | zero => intro ic cur; simp [col2imPadCols]
  | succ n ih =>
      intro ic cur
      simp only [col2imPadCols]
      rw [contrib_append, ih (ic + d.stride_w) (cur + 1), sum_map_range_shift]
      beta_reduce
      congr 1
      · by_cases h : is_a_ge_zero_and_a_lt_b ic d.width = true
        · rw [if_pos h, contrib_single]
          norm_num [h]
        · rw [if_neg h, contrib_nil]
          norm_num [h]
      · refine congrArg List.sum (List.map_congr_left ?_)
        intro x hx
        beta_reduce
        rw [show ic + (d.stride_w : ℤ) + (x : ℤ) * d.stride_w =
          ic + ((x + 1 : ℕ) : ℤ) * d.stride_w by push_cast; ring]
        rw [show cur + 1 + (x : ℤ) = cur + ((x + 1 : ℕ) : ℤ) by push_cast; ring]

theorem col2imPadRows_contrib (d : Desc) (imOff : ℤ) (kc : ℕ) (col : Buf) (j : ℤ) :
    ∀ (n : ℕ) (ir cur : ℤ),
      ((((col2imPadRows d imOff kc n ir cur).1).filter fun e => decide (e.2 = j)).map
        fun e => col e.1).sum =
      ((List.range n).map fun (y : ℕ) =>
        if is_a_ge_zero_and_a_lt_b (ir + (y : ℤ) * d.stride_h) d.height = true then
          ((List.range (outWn d)).map fun (x : ℕ) =>
            if is_a_ge_zero_and_a_lt_b
                (-(d.pad_l : ℤ) + (kc : ℤ) * d.dilation_w + (x : ℤ) * d.stride_w) d.width = true ∧
                imOff + (ir + (y : ℤ) * d.stride_h) * d.width +
                  (-(d.pad_l : ℤ) + (kc : ℤ) * d.dilation_w + (x : ℤ) * d.stride_w) = j then
              col (cur + (y : ℤ) * ((outWn d : ℕ) : ℤ) + x)
            else 0).sum
        else 0).sum := by
  intro n
  induction n with
  | zero => intro ir cur; simp [col2imPadRows]
  | succ n ih =>
      intro ir cur
      simp only [col2imPadRows]
      rw [contrib_append]
      by_cases h : is_a_ge_zero_and_a_lt_b ir d.height = true
      · rw [if_pos h, col2imPadCols_snd,
          col2imPadCols_contrib, ih (ir + d.stride_h) (cur + (outWn d : ℕ)),
          sum_map_range_shift]
        beta_reduce
        congr 1
        · rw [show ir + ((0 : ℕ) : ℤ) * d.stride_h = ir by norm_num, if_pos h]
          refine congrArg List.sum (List.map_congr_left ?_)
          intro x hx
          rw [show cur + ((0 : ℕ) : ℤ) * ((outWn d : ℕ) : ℤ) + (x : ℤ) = cur + (x : ℤ) by
            norm_num]
        · refine congrArg List.sum (List.map_congr_left ?_)
          intro y hy
          beta_reduce
          rw [show ir + (d.stride_h : ℤ) + (y : ℤ) * d.stride_h =
            ir + ((y + 1 : ℕ) : ℤ) * d.stride_h by push_cast; ring]
          rw [show cur + ((outWn d : ℕ) : ℤ) + (y : ℤ) * ((outWn d : ℕ) : ℤ) =
            cur + ((y + 1 : ℕ) : ℤ) * ((outWn d : ℕ) : ℤ) by push_cast; ring]
      · rw [if_neg h]
        rw [show (([] : List (ℤ × ℤ)), cur + ((outWn d : ℕ) : ℤ)).1 = ([] : List (ℤ × ℤ))
          from rfl]
        rw [show (([] : List (ℤ × ℤ)), cur + ((outWn d : ℕ) : ℤ)).2 = cur + ((outWn d : ℕ) : ℤ)
          from rfl]
        rw [contrib_nil, ih (ir + d.stride_h) (cur + (outWn d : ℕ)), sum_map_range_shift]
        beta_reduce
        rw [show ir + ((0 : ℕ) : ℤ) * d.stride_h = ir by norm_num, if_neg h]
        rw [zero_add, zero_add]
        refine congrArg List.sum (List.map_congr_left ?_)
        intro y hy
        beta_reduce
        rw [show ir + (d.stride_h : ℤ) + (y : ℤ) * d.stride_h =
          ir + ((y + 1 : ℕ) : ℤ) * d.stride_h by push_cast; ring]
        rw [show cur + ((outWn d : ℕ) : ℤ) + (y : ℤ) * ((outWn d : ℕ) : ℤ) =
          cur + ((y + 1 : ℕ) : ℤ) * ((outWn d : ℕ) : ℤ) by push_cast; ring]

theorem colTarget_decode (d : Desc) {c kr kc : ℕ} (hkr : kr < d.kernel_h)
    (hkc : kc < d.kernel_w) (y x : ℕ) :
    colTarget d ((c * d.kernel_h + kr) * d.kernel_w + kc) y x =
      if 0 ≤ (y : ℤ) * d.stride_h - d.pad_t + (kr : ℤ) * d.dilation_h ∧
          (y : ℤ) * d.stride_h - d.pad_t + (kr : ℤ) * d.dilation_h < (d.height : ℤ) ∧
          0 ≤ (x : ℤ) * d.stride_w - d.pad_l + (kc : ℤ) * d.dilation_w ∧
          (x : ℤ) * d.stride_w - d.pad_l + (kc : ℤ) * d.dilation_w < (d.width : ℤ) then
        some ((((c * d.height : ℕ) : ℤ) +
            ((y : ℤ) * d.stride_h - d.pad_t + (kr : ℤ) * d.dilation_h)) * d.width +
          ((x : ℤ) * d.stride_w - d.pad_l + (kc : ℤ) * d.dilation_w))
      else none := by
  have h1 : ((c * d.kernel_h + kr) * d.kernel_w + kc) % d.kernel_w = kc := encode_mod hkc
  have h2 : ((c * d.kernel_h + kr) * d.kernel_w + kc) / d.kernel_w % d.kernel_h = kr := by
    rw [encode_div hkc, encode_mod hkr]
  have h3 : ((c * d.kernel_h + kr) * d.kernel_w + kc) / d.kernel_h / d.kernel_w = c := by
    rw [Nat.div_div_eq_div_mul]
    rw [show (c * d.kernel_h + kr) * d.kernel_w + kc =
      c * (d.kernel_h * d.kernel_w) + (kr * d.kernel_w + kc) by ring]
    exact encode_div (flat_lt hkr hkc)
  simp only [colTarget]
  rw [h1, h2, h3]

theorem colTarget_pad_iff {d : Desc} (v : Valid d) (hF : Fits d) {c kr kc y x : ℕ}
    (hkr : kr < d.kernel_h) (hkc : kc < d.kernel_w) (hy : y < outHn d) (hx : x < outWn d)
    (j : ℤ) :
    ((is_a_ge_zero_and_a_lt_b
        (-(d.pad_t : ℤ) + (kr : ℤ) * d.dilation_h + (y : ℤ) * d.stride_h) d.height = true) ∧
     (is_a_ge_zero_and_a_lt_b
        (-(d.pad_l : ℤ) + (kc : ℤ) * d.dilation_w + (x : ℤ) * d.stride_w) d.width = true) ∧
     ((c * (d.height * d.width) : ℕ) : ℤ) +
       (-(d.pad_t : ℤ) + (kr : ℤ) * d.dilation_h + (y : ℤ) * d.stride_h) * d.width +
       (-(d.pad_l : ℤ) + (kc : ℤ) * d.dilation_w + (x : ℤ) * d.stride_w) = j)
    ↔ colTarget d ((c * d.kernel_h + kr) * d.kernel_w + kc) y x = some j := by
  rw [colTarget_decode d hkr hkc y x]
  rw [show (y : ℤ) * d.stride_h - d.pad_t + (kr : ℤ) * d.dilation_h =
    -(d.pad_t : ℤ) + ((kr * d.dilation_h : ℕ) : ℤ) + ((y * d.stride_h : ℕ) : ℤ) by
    push_cast; ring]
  rw [show (x : ℤ) * d.stride_w - d.pad_l + (kc : ℤ) * d.dilation_w =
    -(d.pad_l : ℤ) + ((kc * d.dilation_w : ℕ) : ℤ) + ((x * d.stride_w : ℕ) : ℤ) by
    push_cast; ring]
  rw [show -(d.pad_t : ℤ) + (kr : ℤ) * d.dilation_h + (y : ℤ) * d.stride_h =
    -(d.pad_t : ℤ) + ((kr * d.dilation_h : ℕ) : ℤ) + ((y * d.stride_h : ℕ) : ℤ) by
    push_cast; ring]
  rw [show -(d.pad_l : ℤ) + (kc : ℤ) * d.dilation_w + (x : ℤ) * d.stride_w =
    -(d.pad_l : ℤ) + ((kc * d.dilation_w : ℕ) : ℤ) + ((x * d.stride_w : ℕ) : ℤ) by
    push_cast; ring]
  rw [padRow_is_a_iff v hF hkr hy, padCol_is_a_iff v hF hkc hx]
  rw [show ((c * (d.height * d.width) : ℕ) : ℤ) +
      (-(d.pad_t : ℤ) + ((kr * d.dilation_h : ℕ) : ℤ) + ((y * d.stride_h : ℕ) : ℤ)) * d.width +
      (-(d.pad_l : ℤ) + ((kc * d.dilation_w : ℕ) : ℤ) + ((x * d.stride_w : ℕ) : ℤ)) =
    (((c * d.height : ℕ) : ℤ) +
        (-(d.pad_t : ℤ) + ((kr * d.dilation_h : ℕ) : ℤ) + ((y * d.stride_h : ℕ) : ℤ))) * d.width +
      (-(d.pad_l : ℤ) + ((kc * d.dilation_w : ℕ) : ℤ) + ((x * d.stride_w : ℕ) : ℤ)) by
    push_cast; ring]
  by_cases hq : 0 ≤ -(d.pad_t : ℤ) + ((kr * d.dilation_h : ℕ) : ℤ) + ((y * d.stride_h : ℕ) : ℤ) ∧
      -(d.pad_t : ℤ) + ((kr * d.dilation_h : ℕ) : ℤ) + ((y * d.stride_h : ℕ) : ℤ) < (d.height : ℤ) ∧
      0 ≤ -(d.pad_l : ℤ) + ((kc * d.dilation_w : ℕ) : ℤ) + ((x * d.stride_w : ℕ) : ℤ) ∧
      -(d.pad_l : ℤ) + ((kc * d.dilation_w : ℕ) : ℤ) + ((x * d.stride_w : ℕ) : ℤ) < (d.width : ℤ)
  · rw [if_pos hq]
    simp only [Option.some.injEq]
    obtain ⟨q1, q2, q3, q4⟩ := hq
    constructor
    · rintro ⟨h1, h2, h5⟩
      exact h5
    · intro h5
      exact ⟨⟨q1, q2⟩, ⟨q3, q4⟩, h5⟩
  · rw [if_neg hq]
    constructor
    · rintro ⟨⟨h1a, h1b⟩, ⟨h2a, h2b⟩, h5⟩
      exact absurd ⟨h1a, h1b, h2a, h2b⟩ hq
    · intro h
      simp at h

theorem foldl_emit (b : ℕ → ℤ → List (ℤ × ℤ) × ℤ) (step : ℤ)
    (hsnd : ∀ k cur, (b k cur).2 = cur + step) :
    ∀ (n : ℕ) (l0 : List (ℤ × ℤ)) (c0 : ℤ),
      (List.range n).foldl (fun st k => (st.1 ++ (b k st.2).1, (b k st.2).2)) (l0, c0) =
        (l0 ++ (List.range n).flatMap (fun k => (b k (c0 + (k : ℤ) * step)).1),
         c0 + (n : ℤ) * step) := by
  intro n
  induction n with
  | zero => intro l0 c0; simp
  | succ n ih =>
      intro l0 c0
      rw [List.range_succ, List.foldl_append, ih]
      simp only [List.foldl_cons, List.foldl_nil]
      rw [List.flatMap_append]
      simp only [List.flatMap_cons, List.flatMap_nil, List.append_nil]
      simp only [Prod.mk.injEq]
      constructor
      · rw [List.append_assoc]
      · rw [hsnd]
        push_cast
        ring

theorem col2imNCHWpadOps_eq (d : Desc) :
    col2imNCHWpadOps d =
      (List.range d.channels).flatMap fun (c : ℕ) =>
        (padKRB d ((c * (d.height * d.width) : ℕ) : ℤ)
          (0 + (c : ℤ) *
            ((d.kernel_h : ℤ) * ((d.kernel_w : ℤ) * ((outHn d * outWn d : ℕ) : ℤ))))).1 := by
  have h1 : ∀ (imOff : ℤ) (kr : ℕ) (l0 : List (ℤ × ℤ)) (c0 : ℤ),
      (List.range d.kernel_w).foldl (fun st (kc : ℕ) =>
        (st.1 ++ (padRowsB d imOff kr kc st.2).1, (padRowsB d imOff kr kc st.2).2)) (l0, c0) =
      (l0 ++ (padKCB d imOff kr c0).1, (padKCB d imOff kr c0).2) :=
    fun imOff kr l0 c0 => foldl_emit (padRowsB d imOff kr) ((outHn d * outWn d : ℕ) : ℤ)
      (fun k cur => col2imPadRows_snd d imOff k (outHn d) _ cur) d.kernel_w l0 c0
  have h2 : ∀ (imOff : ℤ) (l0 : List (ℤ × ℤ)) (c0 : ℤ),
      (List.range d.kernel_h).foldl (fun st (kr : ℕ) =>
        (List.range d.kernel_w).foldl (fun st (kc : ℕ) =>
          (st.1 ++ (padRowsB d imOff kr kc st.2).1, (padRowsB d imOff kr kc st.2).2)) st)
        (l0, c0) =
      (l0 ++ (padKRB d imOff c0).1, (padKRB d imOff c0).2) := by
    intro imOff l0 c0
    refine Eq.trans (List.foldl_ext _
      (fun st (kr : ℕ) => (st.1 ++ (padKCB d imOff kr st.2).1, (padKCB d imOff kr st.2).2))
      (l0, c0) ?_) ?_
    · intro st kr hkr
      obtain ⟨a, b⟩ := st
      exact h1 imOff kr a b
    · exact foldl_emit (padKCB d imOff)
        ((d.kernel_w : ℤ) * ((outHn d * outWn d : ℕ) : ℤ))
        (fun _ _ => rfl) d.kernel_h l0 c0
  have h3 : (List.range d.channels).foldl (fun st (c : ℕ) =>
      (List.range d.kernel_h).foldl (fun st (kr : ℕ) =>
        (List.range d.kernel_w).foldl (fun st (kc : ℕ) =>
          (st.1 ++ (padRowsB d ((c * (d.height * d.width) : ℕ) : ℤ) kr kc st.2).1,
           (padRowsB d ((c * (d.height * d.width) : ℕ) : ℤ) kr kc st.2).2)) st) st)
      (([] : List (ℤ × ℤ)), (0 : ℤ)) =
      (([] : List (ℤ × ℤ)) ++ (List.range d.channels).flatMap (fun (c : ℕ) =>
        (padKRB d ((c * (d.height * d.width) : ℕ) : ℤ)
          (0 + (c : ℤ) *
            ((d.kernel_h : ℤ) * ((d.kernel_w : ℤ) * ((outHn d * outWn d : ℕ) : ℤ))))).1),
       0 + (d.channels : ℤ) *
        ((d.kernel_h : ℤ) * ((d.kernel_w : ℤ) * ((outHn d * outWn d : ℕ) : ℤ)))) := by
    refine Eq.trans (List.foldl_ext _
      (fun st (c : ℕ) =>
        (st.1 ++ (padKRB d ((c * (d.height * d.width) : ℕ) : ℤ) st.2).1,
         (padKRB d ((c * (d.height * d.width) : ℕ) : ℤ) st.2).2))
      (([] : List (ℤ × ℤ)), (0 : ℤ)) ?_) ?_
    · intro st c hc
      obtain ⟨a, b⟩ := st
      exact h2 _ a b
    · exact foldl_emit (fun c cur => padKRB d ((c * (d.height * d.width) : ℕ) : ℤ) cur)
        ((d.kernel_h : ℤ) * ((d.kernel_w : ℤ) * ((outHn d * outWn d : ℕ) : ℤ)))
        (fun _ _ => rfl) d.channels [] 0
  calc col2imNCHWpadOps d
      = ((List.range d.channels).foldl (fun st (c : ℕ) =>
          (List.range d.kernel_h).foldl (fun st (kr : ℕ) =>
            (List.range d.kernel_w).foldl (fun st (kc : ℕ) =>
              (st.1 ++ (padRowsB d ((c * (d.height * d.width) : ℕ) : ℤ) kr kc st.2).1,
               (padRowsB d ((c * (d.height * d.width) : ℕ) : ℤ) kr kc st.2).2)) st) st)
          (([] : List (ℤ × ℤ)), (0 : ℤ))).1 := rfl
    _ = _ := by rw [h3]; rfl

theorem col2imNCHWpad_char {d : Desc} (v : Valid d) (hF : Fits d) (col im0 : Buf) (j : ℤ) :
    col2imNCHWpad d col im0 j =
      zeroFill im0 (d.height * d.width * d.channels) j + col2imAcc d col j := by
  rw [show col2imNCHWpad d col im0 =
    applyAdds (zeroFill im0 (d.height * d.width * d.channels)) (col2imNCHWpadOps d) col
    from rfl]
  rw [applyAdds_eq]
  congr 1
  rw [col2imNCHWpadOps_eq, contrib_flatMap, col2imAcc]
  rw [sum_map_range_mul (d.channels * d.kernel_h) d.kernel_w]
  rw [sum_map_range_mul d.channels d.kernel_h]
  refine congrArg List.sum (List.map_congr_left ?_)
  intro c hc
  beta_reduce
  simp only [padKRB]
  rw [contrib_flatMap]
  refine congrArg List.sum (List.map_congr_left ?_)
  intro kr hkr
  beta_reduce
  simp only [padKCB, padRowsB]
  rw [contrib_flatMap]
  refine congrArg List.sum (List.map_congr_left ?_)
  intro kc hkc
  beta_reduce
  rw [col2imPadRows_contrib]
  refine congrArg List.sum (List.map_congr_left ?_)
  intro y hy
  beta_reduce
  have hyn := List.mem_range.mp hy
  have hkrn := List.mem_range.mp hkr
  have hkcn := List.mem_range.mp hkc
  by_cases hrow : is_a_ge_zero_and_a_lt_b
      (-(d.pad_t : ℤ) + (kr : ℤ) * d.dilation_h + (y : ℤ) * d.stride_h) d.height = true
  · rw [if_pos hrow]
    refine congrArg List.sum (List.map_congr_left ?_)
    intro x hx
    beta_reduce
    have hxn := List.mem_range.mp hx
    have hiff := @colTarget_pad_iff d v hF c kr kc y x hkrn hkcn hyn hxn j
    rw [show (0 : ℤ) +
        (c : ℤ) * ((d.kernel_h : ℤ) * ((d.kernel_w : ℤ) * ((outHn d * outWn d : ℕ) : ℤ))) +
        (kr : ℤ) * ((d.kernel_w : ℤ) * ((outHn d * outWn d : ℕ) : ℤ)) +
        (kc : ℤ) * ((outHn d * outWn d : ℕ) : ℤ) +
        (y : ℤ) * ((outWn d : ℕ) : ℤ) + (x : ℤ) =
      (((((c * d.kernel_h + kr) * d.kernel_w + kc) * outHn d + y) * outWn d + x : ℕ) : ℤ) by
      push_cast; ring]
    refine if_congr ?_ rfl rfl
    constructor
    · rintro ⟨a, b⟩
      exact hiff.mp ⟨hrow, a, b⟩
    · intro h
      exact ⟨(hiff.mpr h).2.1, (hiff.mpr h).2.2⟩
  · rw [if_neg hrow]
    symm
    refine List.sum_eq_zero ?_
    intro q hq
    obtain ⟨x, hx, rfl⟩ := List.mem_map.mp hq
    beta_reduce
    have hnc : ¬ colTarget d ((c * d.kernel_h + kr) * d.kernel_w + kc) y x = some j :=
      fun hct => hrow
        ((@colTarget_pad_iff d v hF c kr kc y x hkrn hkcn hyn (List.mem_range.mp hx) j).mpr hct).1
    rw [if_neg hnc]

/-- C2: for every valid descriptor and every column buffer, the three Col2im
NCHW paths — zero-padding/no-dilation add path, equal-padding scan path, and
general fallback — produce the same accumulated destination image whenever
their dispatch predicates hold, each with zero-fill-first semantics. -/
theorem c2_col2im_nchw_path_equivalence {d : Desc} (v : Valid d) (hF : Fits d)
    (col im : Buf) :
    (eqPad d → ∀ j : ℤ, col2imNCHWpad d col im j = col2imNCHWbase d col im j) ∧
    (noPadNoDil d → ∀ j : ℤ,
      col2imNCHWfast d col im j = col2imNCHWbase d col im j ∧
      col2imNCHWfast d col im j = col2imNCHWpad d col im j ∧
      col2imNCHWpad d col im j = col2imNCHWbase d col im j) := by
  constructor
  · intro _ j
    rw [col2imNCHWpad_char v hF col im j, col2imNCHWbase_char d col im j]
  · intro hP j
    have hf := col2imNCHWfast_char v hP col im j
    have hp := col2imNCHWpad_char v hF col im j
    have hb := col2imNCHWbase_char d col im j
    exact ⟨by rw [hf, hb], by rw [hf, hp], by rw [hp, hb]⟩

theorem c2_witness :
    col2imNCHWfast d0 S0 zB 7 = col2imNCHWbase d0 S0 zB 7 ∧
    col2imNCHWpad d0 S0 zB 7 = col2imNCHWbase d0 S0 zB 7 :=
  ⟨((@c2_col2im_nchw_path_equivalence d0 d0_valid d0_fits S0 zB).2 (by decide) 7).1,
   (@c2_col2im_nchw_path_equivalence d0 d0_valid d0_fits S0 zB).1 (by decide) 7⟩

/-- C3: for channels=1, height=width=4, kernel 2x2, stride 1, dilation 1,
no padding, the output size is 3x3; Im2col of S = [0..15] has column 0
(flat offsets 0, 9, 18, 27) equal to [0, 1, 4, 5]; and Col2im of the
all-ones 4x9 column buffer is the overlap-count image
[[1,2,2,1],[2,4,4,2],[2,4,4,2],[1,2,2,1]]. -/
theorem c3_concrete_4x4_example :
    (outHn d0 = 3 ∧ outWn d0 = 3) ∧
    (im2colNCHW d0 S0 zB 0 = 0 ∧ im2colNCHW d0 S0 zB 9 = 1 ∧
     im2colNCHW d0 S0 zB 18 = 4 ∧ im2colNCHW d0 S0 zB 27 = 5) ∧
    (col2imNCHW d0 onesB zB 0 = 1 ∧ col2imNCHW d0 onesB zB 1 = 2 ∧
     col2imNCHW d0 onesB zB 2 = 2 ∧ col2imNCHW d0 onesB zB 3 = 1 ∧
     col2imNCHW d0 onesB zB 4 = 2 ∧ col2imNCHW d0 onesB zB 5 = 4 ∧
     col2imNCHW d0 onesB zB 6 = 4 ∧ col2imNCHW d0 onesB zB 7 = 2 ∧
     col2imNCHW d0 onesB zB 8 = 2 ∧ col2imNCHW d0 onesB zB 9 = 4 ∧
     col2imNCHW d0 onesB zB 10 = 4 ∧ col2imNCHW d0 onesB zB 11 = 2 ∧
     col2imNCHW d0 onesB zB 12 = 1 ∧ col2imNCHW d0 onesB zB 13 = 2 ∧
     col2imNCHW d0 onesB zB 14 = 2 ∧ col2imNCHW d0 onesB zB 15 = 1) := by
  refine ⟨by decide, by decide, ?_⟩
  have hdisp : col2imNCHW d0 onesB zB = col2imNCHWfast d0 onesB zB := by
    rw [col2imNCHW, if_pos (show noPadNoDil d0 by decide)]
  have hchar : ∀ j : ℤ, col2imNCHW d0 onesB zB j =
      zeroFill zB (d0.height * d0.width * d0.channels) j + col2imAcc d0 onesB j := by
    intro j
    rw [hdisp]
    exact col2imNCHWfast_char d0_valid (by decide) onesB zB j
  have h1 : outHn d0 = 3 := by decide
  have h2 : outWn d0 = 3 := by decide
  have h3 : d0.channels * d0.kernel_h * d0.kernel_w = 4 := rfl
  simp only [hchar]
  refine ⟨?_, ?_, ?_, ?_, ?_, ?_, ?_, ?_, ?_, ?_, ?_, ?_, ?_, ?_, ?_, ?_⟩ <;>
    simp +decide [zeroFill, col2imAcc, h1, h2, h3, List.range_succ, onesB] <;> norm_num

/-- C5 (corrected): inside the written image region every Col2im variant is
fully determined by the column buffer — the zero-fill leaves no residual
values from before the call — and therefore calling Col2im twice in
sequence on the same destination yields the SAME accumulated values as a
single call.  The claimed doubling on a second call is false: because the
transform re-zeros first, the second call reproduces, not doubles, the
result, as the final conjunct witnesses at a concrete descriptor. -/
theorem c5_col2im_rezero_not_double :
    (∀ (d : Desc) (col im im2 : Buf) (j : ℤ),
        0 ≤ j → j < ((d.height * d.width * d.channels : ℕ) : ℤ) →
        col2imNCHW d col im j = col2imNCHW d col im2 j) ∧
    (∀ (d : Desc) (col im : Buf) (j : ℤ),
        0 ≤ j → j < ((d.height * d.width * d.channels : ℕ) : ℤ) →
        col2imNCHW d col (col2imNCHW d col im) j = col2imNCHW d col im j) ∧
    (∀ (d : Desc) (col im im2 : Buf) (j : ℤ),
        0 ≤ j → j < ((d.height * d.width * d.channels : ℕ) : ℤ) →
        col2imNHWC d col im j = col2imNHWC d col im2 j) ∧
    (∀ (d : Desc) (col im : Buf) (j : ℤ),
        0 ≤ j → j < ((d.height * d.width * d.channels : ℕ) : ℤ) →
        col2imNHWC d col (col2imNHWC d col im) j = col2imNHWC d col im j) ∧
    ¬ (∀ (d : Desc) (col im : Buf) (j : ℤ),
        0 ≤ j → j < ((d.height * d.width * d.channels : ℕ) : ℤ) →
        col2imNCHW d col (col2imNCHW d col im) j = 2 * col2imNCHW d col im j) := by
  have hkey : ∀ (ops : List (ℤ × ℤ)) (n : ℕ) (col b b2 : Buf) (j : ℤ),
      0 ≤ j → j < (n : ℤ) →
      applyAdds (zeroFill b n) ops col j = applyAdds (zeroFill b2 n) ops col j := by
    intro ops n col b b2 j h0 hn
    rw [applyAdds_eq, applyAdds_eq]
    congr 1
    show zeroFill b n j = zeroFill b2 n j
    rw [zeroFill, zeroFill, if_pos ⟨h0, hn⟩, if_pos ⟨h0, hn⟩]
  have hshape : ∀ (d : Desc) (col im : Buf),
      col2imNCHW d col im =
        applyAdds (zeroFill im (d.height * d.width * d.channels)) (col2imOpsNCHW d) col := by
    intro d col im
    rw [col2imNCHW, col2imOpsNCHW]
    split_ifs <;> rfl
  have hshapeN : ∀ (d : Desc) (col im : Buf),
      col2imNHWC d col im =
        applyAdds (zeroFill im (d.height * d.width * d.channels))
          ((col2imNHWCrows d (outHn d) (-(d.pad_t : ℤ)) 0).1) col :=
    fun _ _ _ => rfl
  have hIndep : ∀ (d : Desc) (col im im2 : Buf) (j : ℤ),
      0 ≤ j → j < ((d.height * d.width * d.channels : ℕ) : ℤ) →
      col2imNCHW d col im j = col2imNCHW d col im2 j := by
    intro d col im im2 j h0 hn
    rw [hshape, hshape]
    exact hkey (col2imOpsNCHW d) (d.height * d.width * d.channels) col im im2 j h0 hn
  have hTwice : ∀ (d : Desc) (col im : Buf) (j : ℤ),
      0 ≤ j → j < ((d.height * d.width * d.channels : ℕ) : ℤ) →
      col2imNCHW d col (col2imNCHW d col im) j = col2imNCHW d col im j :=
    fun d col im j h0 hn => hIndep d col (col2imNCHW d col im) im j h0 hn
  refine ⟨hIndep, hTwice, ?_, ?_, ?_⟩
  · intro d col im im2 j h0 hn
    rw [hshapeN, hshapeN]
    exact hkey _ (d.height * d.width * d.channels) col im im2 j h0 hn
  · intro d col im j h0 hn
    rw [hshapeN d col (col2imNHWC d col im), hshapeN d col im]
    exact hkey _ (d.height * d.width * d.channels) col (col2imNHWC d col im) im j h0 hn
  · intro h
    have honce : col2imNCHW d1 onesB zB 0 = 1 := by
      have hdisp : col2imNCHW d1 onesB zB = col2imNCHWfast d1 onesB zB := by
        rw [col2imNCHW, if_pos (show noPadNoDil d1 by decide)]
      rw [hdisp, col2imNCHWfast_char d1_valid (by decide) onesB zB 0]
      have h1 : outHn d1 = 2 := by decide
      have h2 : outWn d1 = 2 := by decide
      have h3 : d1.channels * d1.kernel_h * d1.kernel_w = 1 := rfl
      simp +decide [zeroFill, col2imAcc, h1, h2, h3, List.range_succ, onesB]
    have hdd := h d1 onesB zB 0 (le_refl 0) (by decide)
    rw [hTwice d1 onesB zB 0 (le_refl 0) (by decide), honce] at hdd
    norm_num at hdd

theorem c5_witness :
    col2imNCHW d1 onesB S0 0 = col2imNCHW d1 onesB zB 0 :=
  c5_col2im_rezero_not_double.1 d1 onesB S0 zB 0 (le_refl 0) (by decide)

/-- Counterexample to the doubling reading of C5: on the 2x2 image with 1x1
kernel, a second Col2im call reproduces the value 1 at offset 0 instead of
doubling it to 2. -/
theorem c5_counterexample :
    ¬ (∀ (d : Desc) (col im : Buf) (j : ℤ),
        0 ≤ j → j < ((d.height * d.width * d.channels : ℕ) : ℤ) →
        col2imNCHW d col (col2imNCHW d col im) j = 2 * col2imNCHW d col im j) := by
  intro h
  have hchar : ∀ (b : Buf), col2imNCHW d1 onesB b 0 = 1 := by
    intro b
    have hdisp : col2imNCHW d1 onesB b = col2imNCHWfast d1 onesB b := by
      rw [col2imNCHW, if_pos (show noPadNoDil d1 by decide)]
    rw [hdisp, col2imNCHWfast_char d1_valid (by decide) onesB b 0]
    have h1 : outHn d1 = 2 := by decide
    have h2 : outWn d1 = 2 := by decide
    have h3 : d1.channels * d1.kernel_h * d1.kernel_w = 1 := rfl
    simp +decide [zeroFill, col2imAcc, h1, h2, h3, List.range_succ, onesB]
  have hdd := h d1 onesB zB 0 (le_refl 0) (by decide)
  rw [hchar (col2imNCHW d1 onesB zB), hchar zB] at hdd
  norm_num at hdd

/-- C7: whenever the padded input is at least the effective kernel, the C
output-size expression (truncating division) equals the spec's floor form
floor((input + pad_low + pad_high - effective_kernel) / stride) + 1; it
produces exactly 1 at equality; it grows by exactly 1 when the input grows
by stride; and it is exactly the computation both transforms use per axis. -/
theorem c7_output_size_formula :
    (∀ input padA padB kernel dilation stride : ℕ,
      (dilation : ℤ) * ((kernel : ℤ) - 1) + 1 ≤ (input : ℤ) + padA + padB →
      outputSize input padA padB kernel dilation stride =
        outputSizeSpec input padA padB kernel dilation stride) ∧
    (∀ input padA padB kernel dilation stride : ℕ,
      (input : ℤ) + padA + padB = (dilation : ℤ) * ((kernel : ℤ) - 1) + 1 →
      outputSize input padA padB kernel dilation stride = 1) ∧
    (∀ input padA padB kernel dilation stride : ℕ,
      1 ≤ stride →
      (dilation : ℤ) * ((kernel : ℤ) - 1) + 1 ≤ (input : ℤ) + padA + padB →
      outputSize (input + stride) padA padB kernel dilation stride =
        outputSize input padA padB kernel dilation stride + 1) ∧
    (∀ d : Desc,
      outH d = outputSize d.height d.pad_b d.pad_t d.kernel_h d.dilation_h d.stride_h ∧
      outW d = outputSize d.width d.pad_l d.pad_r d.kernel_w d.dilation_w d.stride_w) := by
  refine ⟨?_, ?_, ?_, fun d => ⟨rfl, rfl⟩⟩
  · intro input padA padB kernel dilation stride hnum
    have hnn : (0 : ℤ) ≤
        (input : ℤ) + padA + padB - ((dilation : ℤ) * ((kernel : ℤ) - 1) + 1) := by omega
    unfold outputSize outputSizeSpec
    rw [Int.tdiv_eq_ediv hnn (by positivity)]
  · intro input padA padB kernel dilation stride heq
    unfold outputSize
    rw [show (input : ℤ) + padA + padB - ((dilation : ℤ) * ((kernel : ℤ) - 1) + 1) = 0 by
      omega]
    rw [Int.zero_tdiv]
    ring
  · intro input padA padB kernel dilation stride hs hnum
    have hnn : (0 : ℤ) ≤
        (input : ℤ) + padA + padB - ((dilation : ℤ) * ((kernel : ℤ) - 1) + 1) := by omega
    have hs' : (0 : ℤ) < (stride : ℤ) := by exact_mod_cast hs
    unfold outputSize
    rw [show ((input + stride : ℕ) : ℤ) + padA + padB -
        ((dilation : ℤ) * ((kernel : ℤ) - 1) + 1) =
      ((input : ℤ) + padA + padB - ((dilation : ℤ) * ((kernel : ℤ) - 1) + 1)) +
        1 * (stride : ℤ) by push_cast; ring]
    rw [Int.tdiv_eq_ediv (by omega) (le_of_lt hs')]
    rw [Int.add_mul_ediv_right _ _ (ne_of_gt hs')]
    rw [Int.tdiv_eq_ediv hnn (le_of_lt hs')]

theorem c7_witness :
    outputSize 4 0 0 2 1 1 = outputSizeSpec 4 0 0 2 1 1 ∧
    outputSize 2 0 0 2 1 1 = 1 ∧
    outputSize (4 + 1) 0 0 2 1 1 = outputSize 4 0 0 2 1 1 + 1 :=
  ⟨c7_output_size_formula.1 4 0 0 2 1 1 (by decide),
   c7_output_size_formula.2.1 2 0 0 2 1 1 (by decide),
   c7_output_size_formula.2.2.1 4 0 0 2 1 1 (by decide) (by decide)⟩

/-- C9: for every 32-bit signed a and every positive 32-bit signed b, the
unsigned-comparison bounds test is_a_ge_zero_and_a_lt_b(a, b) — which
compares the two operands reduced modulo 2^32 — returns true exactly when
0 <= a and a < b. -/
theorem c9_is_a_ge_zero_and_a_lt_b_iff (a b : ℤ)
    (ha1 : -(2 ^ 31) ≤ a) (ha2 : a < 2 ^ 31) (hb1 : 0 < b) (hb2 : b < 2 ^ 31) :
    is_a_ge_zero_and_a_lt_b a b = true ↔ 0 ≤ a ∧ a < b :=
  is_a_ge_iff ha1 ha2 (le_of_lt hb1) hb2

theorem c9_witness :
    (is_a_ge_zero_and_a_lt_b 5 7 = true ↔ (0 : ℤ) ≤ 5 ∧ (5 : ℤ) < 7) ∧
    (is_a_ge_zero_and_a_lt_b (-3) 7 = true ↔ (0 : ℤ) ≤ -3 ∧ (-3 : ℤ) < 7) :=
  ⟨c9_is_a_ge_zero_and_a_lt_b_iff 5 7 (by decide) (by decide) (by decide) (by decide),
   c9_is_a_ge_zero_and_a_lt_b_iff (-3) 7 (by decide) (by decide) (by decide) (by decide)⟩

/-- C10: under the zero-padding/no-dilation fast-path preconditions, every
index the NCHW fast paths touch stays in bounds: the signal-side flat index
(y*stride_h + kh)*width + kw + x*stride_w stays inside the channel's
height*width slice for every output column x < output_w — so the
stride_w = 1 memcpy of output_w floats never leaves the slice — and the
column-side flat index stays inside
channels*kernel_h*kernel_w*output_h*output_w. -/
theorem c10_fast_path_index_bounds {d : Desc} (v : Valid d) (hP : noPadNoDil d)
    {kh kw y x : ℕ} (hkh : kh < d.kernel_h) (hkw : kw < d.kernel_w)
    (hy : y < outHn d) (hx : x < outWn d) :
    (y * d.stride_h + kh) * d.width + kw + x * d.stride_w < d.height * d.width ∧
    (∀ k : ℕ, k < d.channels * d.kernel_h * d.kernel_w →
      (k * outHn d + y) * outWn d + x <
        d.channels * d.kernel_h * d.kernel_w * (outHn d * outWn d)) := by
  obtain ⟨hd1, hd2, hp1, hp2, hp3, hp4⟩ := hP
  have hH := outHn_pred_mul v
  have hW := outWn_pred_mul v
  have hnumH : numHn d = d.height - d.kernel_h := by
    have hkh1 := v.kh
    simp only [numHn, dkernelHn, hd1, hp3, hp4]
    omega
  have hnumW : numWn d = d.width - d.kernel_w := by
    have hkw1 := v.kw
    simp only [numWn, dkernelWn, hd2, hp1, hp2]
    omega
  have hkhH := dkernelHn_le v
  have hkwW := dkernelWn_le v
  have hKH : d.kernel_h ≤ d.height := by
    simp only [dkernelHn, hd1, hp3, hp4] at hkhH
    have := v.kh
    omega
  have hKW : d.kernel_w ≤ d.width := by
    simp only [dkernelWn, hd2, hp1, hp2] at hkwW
    have := v.kw
    omega
  have hyle : y * d.stride_h ≤ (outHn d - 1) * d.stride_h :=
    Nat.mul_le_mul_right _ (by omega)
  have hxle : x * d.stride_w ≤ (outWn d - 1) * d.stride_w :=
    Nat.mul_le_mul_right _ (by omega)
  have hiy : y * d.stride_h + kh < d.height := by omega
  have hix : kw + x * d.stride_w < d.width := by omega
  constructor
  · have h := yx_lt hiy hix
    omega
  · intro k hk
    rw [show (k * outHn d + y) * outWn d + x =
      k * (outHn d * outWn d) + (y * outWn d + x) by ring]
    exact flat_lt hk (yx_lt hy hx)

theorem c10_witness :
    (0 * d0.stride_h + 1) * d0.width + 1 + 2 * d0.stride_w < d0.height * d0.width ∧
    (3 * outHn d0 + 0) * outWn d0 + 2 <
      d0.channels * d0.kernel_h * d0.kernel_w * (outHn d0 * outWn d0) :=
  ⟨(@c10_fast_path_index_bounds d0 d0_valid (by decide) 1 1 0 2
      (by decide) (by decide) (by decide) (by decide)).1,
   (@c10_fast_path_index_bounds d0 d0_valid (by decide) 1 1 0 2
      (by decide) (by decide) (by decide) (by decide)).2 3 (by decide)⟩

theorem sum_range_single (n : ℕ) (f : ℕ → ℚ) (y0 : ℕ) (hy0 : y0 < n) (v : ℚ)
    (h : ∀ y, y < n → f y = if y = y0 then v else 0) :
    ((List.range n).map f).sum = v := by
  induction n with
  | zero => omega
  | succ n ih =>
      rw [List.range_succ, List.map_append, List.sum_append]
      simp only [List.map_cons, List.map_nil, List.sum_cons, List.sum_nil, add_zero]
      by_cases hc : y0 = n
      · subst hc
        rw [h y0 (by omega), if_pos rfl]
        have hz : ((List.range y0).map f).sum = 0 := by
          refine List.sum_eq_zero ?_
          intro q hq
          obtain ⟨x, hx, rfl⟩ := List.mem_map.mp hq
          have hxn := List.mem_range.mp hx
          rw [h x (by omega), if_neg (by omega)]
        rw [hz, zero_add]
      · rw [ih (by omega) (fun y hy => h y (by omega)), h n (by omega), if_neg (by omega),
          add_zero]

theorem sum_range_const (n : ℕ) (v : ℚ) :
    ((List.range n).map fun (_ : ℕ) => v).sum = n * v := by
  induction n with
  | zero => simp
  | succ n ih =>
      rw [List.range_succ, List.map_append, List.sum_append, ih]
      simp only [List.map_cons, List.map_nil, List.sum_cons, List.sum_nil, add_zero]
      push_cast
      ring

/-- C4: with stride 1, dilation 1 and no padding, Col2im after Im2col
multiplies every interior sample — channel row in [kernel_h-1,
height-kernel_h], column in [kernel_w-1, width-kernel_w] — by exactly
kernel_h*kernel_w, the number of windows covering it. -/
theorem c4_roundtrip_interior {d : Desc} (v : Valid d) (hP : noPadNoDil d)
    (hs1 : d.stride_h = 1) (hs2 : d.stride_w = 1)
    (S col0 im0 : Buf) {c i t : ℕ} (hc : c < d.channels)
    (hi1 : d.kernel_h - 1 ≤ i) (hi2 : i ≤ d.height - d.kernel_h)
    (ht1 : d.kernel_w - 1 ≤ t) (ht2 : t ≤ d.width - d.kernel_w) :
    col2imNCHW d (im2colNCHW d S col0) im0 (((c * d.height + i) * d.width + t : ℕ) : ℤ) =
      ((d.kernel_h * d.kernel_w : ℕ) : ℚ) *
        S (((c * d.height + i) * d.width + t : ℕ) : ℤ) := by
  have hd1 := hP.1
  have hd2 := hP.2.1
  have hpl := hP.2.2.1
  have hpr := hP.2.2.2.1
  have hpt := hP.2.2.2.2.1
  have hpb := hP.2.2.2.2.2
  have hkh1 := v.kh
  have hkw1 := v.kw
  have hKH : d.kernel_h ≤ d.height := by
    have h := dkernelHn_le v
    simp only [dkernelHn, hd1, hpt, hpb] at h
    omega
  have hKW : d.kernel_w ≤ d.width := by
    have h := dkernelWn_le v
    simp only [dkernelWn, hd2, hpl, hpr] at h
    omega
  have hnumH : numHn d = d.height - d.kernel_h := by
    simp only [numHn, dkernelHn, hd1, hpt, hpb]
    omega
  have hnumW : numWn d = d.width - d.kernel_w := by
    simp only [numWn, dkernelWn, hd2, hpl, hpr]
    omega
  have houtH : outHn d = d.height - d.kernel_h + 1 := by
    rw [outHn_eq v, hs1, hnumH, Nat.div_one]
  have houtW : outWn d = d.width - d.kernel_w + 1 := by
    rw [outWn_eq v, hs2, hnumW, Nat.div_one]
  have hiH : i < d.height := by omega
  have htW : t < d.width := by omega
  have hjlt : (c * d.height + i) * d.width + t < d.height * d.width * d.channels := by
    have h2 := flat_lt (flat_lt hc hiH) htW
    calc (c * d.height + i) * d.width + t < d.channels * d.height * d.width := h2
      _ = d.height * d.width * d.channels := by ring
  have hitIff : ∀ (c' kh kw y x : ℕ), kh < d.kernel_h → kw < d.kernel_w →
      (colTarget d ((c' * d.kernel_h + kh) * d.kernel_w + kw) y x =
          some (((c * d.height + i) * d.width + t : ℕ) : ℤ) ↔
        (c' = c ∧ y + kh = i ∧ x + kw = t)) := by
    intro c' kh kw y x hkh hkw
    have hdec : colTarget d ((c' * d.kernel_h + kh) * d.kernel_w + kw) y x =
        if (y : ℤ) + kh < d.height ∧ (x : ℤ) + kw < d.width then
          some ((((c' * d.height : ℕ) : ℤ) + ((y : ℤ) + kh)) * d.width + ((x : ℤ) + kw))
        else none := by
      rw [colTarget_decode d hkh hkw y x, hs1, hs2, hd1, hd2, hpl, hpt]
      refine if_congr ?_ ?_ rfl
      · push_cast
        constructor
        · rintro ⟨h1, h2, h3, h4⟩
          exact ⟨by omega, by omega⟩
        · rintro ⟨h1, h2⟩
          exact ⟨by omega, by omega, by omega, by omega⟩
      · refine congrArg Option.some ?_
        push_cast
        ring
    rw [hdec]
    by_cases hcnd : (y : ℤ) + kh < d.height ∧ (x : ℤ) + kw < d.width
    · rw [if_pos hcnd]
      simp only [Option.some.injEq]
      constructor
      · intro he
        have he2 : ((((c * d.height : ℕ) : ℤ) + (i : ℤ)) * d.width + (t : ℤ)) =
            (((c * d.height + i) * d.width + t : ℕ) : ℤ) := by push_cast; ring
        obtain ⟨hA, hic⟩ := addrInj (by positivity) (by positivity) hcnd.2 (by positivity)
          (by exact_mod_cast htW) (he.trans he2.symm)
        have he3 : ((c' : ℤ) * d.height) + ((y : ℤ) + kh) =
            ((c : ℤ) * d.height) + (i : ℤ) := by push_cast at hA; linarith
        obtain ⟨hc', hyi⟩ := addrInj (by positivity) (by positivity) hcnd.1 (by positivity)
          (by exact_mod_cast hiH) he3
        exact ⟨by exact_mod_cast hc', by exact_mod_cast hyi, by exact_mod_cast hic⟩
      · rintro ⟨rfl, h2, h3⟩
        have h2' : (y : ℤ) + kh = (i : ℤ) := by exact_mod_cast h2
        have h3' : (x : ℤ) + kw = (t : ℤ) := by exact_mod_cast h3
        push_cast
        rw [h2', h3']
    · rw [if_neg hcnd]
      constructor
      · intro h
        exact absurd h (by simp)
      · rintro ⟨rfl, h2, h3⟩
        exfalso
        apply hcnd
        constructor
        · omega
        · omega
  have hCOL : ∀ (k y x : ℕ), k < d.channels * d.kernel_h * d.kernel_w →
      y < outHn d → x < outWn d →
      colTarget d k y x = some (((c * d.height + i) * d.width + t : ℕ) : ℤ) →
      im2colNCHW d S col0 (((k * outHn d + y) * outWn d + x : ℕ) : ℤ) =
        S (((c * d.height + i) * d.width + t : ℕ) : ℤ) := by
    intro k y x hk hy hx hct
    rw [show im2colNCHW d S col0 = im2colNCHWfast d S col0 from by
      rw [im2colNCHW, if_pos hP]]
    rw [im2colNCHWfast_value d S col0 hk hy hx]
    rw [fastVal_eq_im2colVal v hP S hk hy hx]
    unfold im2colVal
    rw [hct]
  rw [show col2imNCHW d (im2colNCHW d S col0) im0 =
    col2imNCHWfast d (im2colNCHW d S col0) im0 from by rw [col2imNCHW, if_pos hP]]
  rw [col2imNCHWfast_char v hP (im2colNCHW d S col0) im0 _]
  rw [show zeroFill im0 (d.height * d.width * d.channels)
      (((c * d.height + i) * d.width + t : ℕ) : ℤ) = 0 from by
    rw [zeroFill, if_pos ⟨by positivity, by exact_mod_cast hjlt⟩]]
  rw [zero_add]
  rw [col2imAcc, sum_map_range_mul (d.channels * d.kernel_h) d.kernel_w,
    sum_map_range_mul d.channels d.kernel_h]
  refine Eq.trans (sum_range_single d.channels _ c hc
    ((d.kernel_h : ℚ) * ((d.kernel_w : ℚ) *
      S (((c * d.height + i) * d.width + t : ℕ) : ℤ))) ?_) ?_
  · intro c' hc'
    beta_reduce
    trans ((List.range d.kernel_h).map fun (_ : ℕ) =>
        ((List.range d.kernel_w).map fun (_ : ℕ) =>
          (if c' = c then S (((c * d.height + i) * d.width + t : ℕ) : ℤ) else 0)).sum).sum
    · refine congrArg List.sum (List.map_congr_left ?_)
      intro kh hkh
      beta_reduce
      refine congrArg List.sum (List.map_congr_left ?_)
      intro kw hkw
      beta_reduce
      have hkhn := List.mem_range.mp hkh
      have hkwn := List.mem_range.mp hkw
      by_cases hcc : c' = c
      · rw [if_pos hcc]
        refine sum_range_single (outHn d) _ (i - kh) (by omega)
          (S (((c * d.height + i) * d.width + t : ℕ) : ℤ)) ?_
        intro y hy
        by_cases hyi : y + kh = i
        · rw [if_pos (by omega : y = i - kh)]
          refine sum_range_single (outWn d) _ (t - kw) (by omega)
            (S (((c * d.height + i) * d.width + t : ℕ) : ℤ)) ?_
          intro x hx
          by_cases hxx : x + kw = t
          · rw [if_pos (by omega : x = t - kw)]
            have hct : colTarget d ((c' * d.kernel_h + kh) * d.kernel_w + kw) y x =
                some (((c * d.height + i) * d.width + t : ℕ) : ℤ) :=
              (hitIff c' kh kw y x hkhn hkwn).mpr ⟨hcc, hyi, hxx⟩
            rw [if_pos hct]
            exact hCOL ((c' * d.kernel_h + kh) * d.kernel_w + kw) y x
              (flat_lt (flat_lt hc' hkhn) hkwn) hy hx hct
          · rw [if_neg (by omega : ¬ x = t - kw)]
            exact if_neg (fun hct => hxx ((hitIff c' kh kw y x hkhn hkwn).mp hct).2.2)
        · rw [if_neg (by omega : ¬ y = i - kh)]
          refine List.sum_eq_zero ?_
          intro q hq
          obtain ⟨x, hx, rfl⟩ := List.mem_map.mp hq
          exact if_neg (fun hct => hyi ((hitIff c' kh kw y x hkhn hkwn).mp hct).2.1)
      · rw [if_neg hcc]
        refine List.sum_eq_zero ?_
        intro q hq
        obtain ⟨yv, hyv, rfl⟩ := List.mem_map.mp hq
        refine List.sum_eq_zero ?_
        intro q2 hq2
        obtain ⟨x, hx, rfl⟩ := List.mem_map.mp hq2
        exact if_neg (fun hct => hcc ((hitIff c' kh kw yv x hkhn hkwn).mp hct).1)
    · rw [sum_range_const, sum_range_const]
      by_cases hcc : c' = c
      · rw [if_pos hcc, if_pos hcc]
      · rw [if_neg hcc, if_neg hcc, mul_zero, mul_zero]
  · push_cast
    ring

theorem c4_witness :
    col2imNCHW d0 (im2colNCHW d0 S0 zB) zB (((0 * d0.height + 1) * d0.width + 1 : ℕ) : ℤ) =
      ((d0.kernel_h * d0.kernel_w : ℕ) : ℚ) *
        S0 (((0 * d0.height + 1) * d0.width + 1 : ℕ) : ℤ) :=
  @c4_roundtrip_interior d0 d0_valid (by decide) rfl rfl S0 zB zB 0 1 1
    (by decide) (by decide) (by decide) (by decide) (by decide)

theorem stepList_eq (step : ℤ) (hs : 1 ≤ step) :
    ∀ (m : ℕ) (lo : ℤ),
      stepList lo (lo + step * m + 1) step =
        (List.range (m + 1)).map fun (q : ℕ) => lo + q * step := by
  intro m
  induction m with
  | zero =>
      intro lo
      rw [stepList, dif_pos ⟨by push_cast; omega, hs⟩]
      rw [stepList, dif_neg (by push_cast; omega)]
      norm_num [show List.range 1 = [0] from rfl]
  | succ m ih =>
      intro lo
      rw [stepList, dif_pos ⟨by
        have h1 : (0 : ℤ) ≤ step * ((m + 1 : ℕ) : ℤ) := mul_nonneg (by omega) (by positivity)
        omega, hs⟩]
      rw [show lo + step * ((m + 1 : ℕ) : ℤ) + 1 = (lo + step) + step * (m : ℕ) + 1 by
        push_cast; ring]
      rw [ih (lo + step)]
      conv_rhs => rw [List.range_succ_eq_map, List.map_cons]
      congr 1
      · norm_num
      · rw [List.map_map]
        refine List.map_congr_left ?_
        intro q hq
        simp only [Function.comp]
        push_cast
        ring

theorem stepList_dkernelH {d : Desc} (v : Valid d) (h_pad : ℤ) :
    stepList h_pad (h_pad + dkernelH d) d.dilation_h =
      (List.range d.kernel_h).map fun (q : ℕ) => h_pad + q * d.dilation_h := by
  have hkh := v.kh
  have hdh := v.dh
  rw [show h_pad + dkernelH d =
    h_pad + (d.dilation_h : ℤ) * ((d.kernel_h - 1 : ℕ) : ℤ) + 1 from by
    rw [dkernelH, Nat.cast_sub hkh]; push_cast; ring]
  rw [stepList_eq (d.dilation_h : ℤ) (by exact_mod_cast hdh) (d.kernel_h - 1) h_pad]
  rw [show d.kernel_h - 1 + 1 = d.kernel_h by omega]

theorem stepList_dkernelW {d : Desc} (v : Valid d) (w_pad : ℤ) :
    stepList w_pad (w_pad + dkernelW d) d.dilation_w =
      (List.range d.kernel_w).map fun (q : ℕ) => w_pad + q * d.dilation_w := by
  have hkw := v.kw
  have hdw := v.dw
  rw [show w_pad + dkernelW d =
    w_pad + (d.dilation_w : ℤ) * ((d.kernel_w - 1 : ℕ) : ℤ) + 1 from by
    rw [dkernelW, Nat.cast_sub hkw]; push_cast; ring]
  rw [stepList_eq (d.dilation_w : ℤ) (by exact_mod_cast hdw) (d.kernel_w - 1) w_pad]
  rw [show d.kernel_w - 1 + 1 = d.kernel_w by omega]

theorem flatMap_range_succ_left {α : Type} (f : ℕ → List α) (n : ℕ) :
    (List.range (n + 1)).flatMap f = f 0 ++ (List.range n).flatMap fun k => f (k + 1) := by
  induction n with
  | zero => simp [show List.range 1 = [0] from rfl]
  | succ n ih =>
      rw [flatMap_range_succ, ih, flatMap_range_succ, List.append_assoc]

theorem flatten_flatMap {α β : Type} (l : List α) (f : α → List (List β)) :
    (l.flatMap f).flatten = l.flatMap fun a => (f a).flatten := by
  induction l with
  | nil => simp
  | cons a t ih => rw [List.flatMap_cons, List.flatten_append, ih, List.flatMap_cons]

theorem flatten_map {α β : Type} (l : List α) (f : α → List β) :
    (l.map f).flatten = l.flatMap f := by
  induction l with
  | nil => rfl
  | cons a t ih => rw [List.map_cons, List.flatten_cons, ih, List.flatMap_cons]

theorem flatMap_map' {α β γ : Type} (l : List α) (f : α → β) (g : β → List γ) :
    (l.map f).flatMap g = l.flatMap fun a => g (f a) := by
  induction l with
  | nil => rfl
  | cons a t ih => rw [List.map_cons, List.flatMap_cons, List.flatMap_cons, ih]

theorem range_mul_flatMap {α : Type} (a b : ℕ) (g : ℕ → ℕ → α) :
    (List.range a).flatMap (fun i => (List.range b).map fun j => g i j) =
      (List.range (a * b)).map fun r => g (r / b) (r % b) := by
  induction a with
  | zero => simp
  | succ a ih =>
      rw [flatMap_range_succ, ih]
      rw [show (a + 1) * b = a * b + b by ring, List.range_add, List.map_append]
      congr 1
      rw [List.map_map]
      refine List.map_congr_left ?_
      intro j hj
      have hjb := List.mem_range.mp hj
      simp only [Function.comp]
      rw [encode_div hjb, encode_mod hjb]

theorem chunkAt_getD (im : Buf) (off : ℤ) {n q : ℕ} (hq : q < n) :
    (chunkAt im off n).getD q 0 = im (off + q) := by
  rw [chunkAt]
  have hlen : q < ((List.range n).map fun (x : ℕ) => im (off + x)).length := by simpa using hq
  rw [List.getD_eq_getElem _ _ hlen]
  simp

theorem im2colNHWCtaps_eq {d : Desc} (v : Valid d) (im : Buf) (h_pad w_pad : ℤ) :
    im2colNHWCtaps d im h_pad w_pad =
      (List.range d.kernel_h).flatMap fun (kr : ℕ) =>
        (List.range d.kernel_w).map fun (kc : ℕ) =>
          nhwcTapList d im (h_pad + (kr : ℤ) * d.dilation_h)
            (w_pad + (kc : ℤ) * d.dilation_w) := by
  rw [im2colNHWCtaps, stepList_dkernelH v h_pad, stepList_dkernelW v w_pad]
  rw [flatMap_map']
  refine congrArg (List.range d.kernel_h).flatMap (funext fun kr => ?_)
  rw [List.map_map]
  refine congrArg (List.range d.kernel_w).map (funext fun kc => ?_)
  rfl

theorem im2colNHWCcols_eq (d : Desc) (im : Buf) (h_pad : ℤ) :
    ∀ (n : ℕ) (w_pad : ℤ),
      im2colNHWCcols d im h_pad n w_pad =
        (List.range n).flatMap fun (ox : ℕ) =>
          im2colNHWCtaps d im h_pad (w_pad + (ox : ℤ) * d.stride_w) := by
  intro n
  induction n with
  | zero => intro w_pad; simp [im2colNHWCcols]
  | succ n ih =>
      intro w_pad
      rw [show im2colNHWCcols d im h_pad (n + 1) w_pad =
        im2colNHWCtaps d im h_pad w_pad ++
          im2colNHWCcols d im h_pad n (w_pad + d.stride_w) from rfl]
      rw [ih (w_pad + d.stride_w)]
      rw [flatMap_range_succ_left]
      congr 1
      · exact congrArg (im2colNHWCtaps d im h_pad) (by norm_num)
      · exact congrArg _ (funext fun ox =>
          congrArg (im2colNHWCtaps d im h_pad) (by push_cast; ring))

theorem im2colNHWCrows_eq (d : Desc) (im : Buf) :
    ∀ (n : ℕ) (h_pad : ℤ),
      im2colNHWCrows d im n h_pad =
        (List.range n).flatMap fun (oy : ℕ) =>
          im2colNHWCcols d im (h_pad + (oy : ℤ) * d.stride_h) (outWn d) (-(d.pad_l : ℤ)) := by
  intro n
  induction n with
  | zero => intro h_pad; simp [im2colNHWCrows]
  | succ n ih =>
      intro h_pad
      rw [show im2colNHWCrows d im (n + 1) h_pad =
        im2colNHWCcols d im h_pad (outWn d) (-(d.pad_l : ℤ)) ++
          im2colNHWCrows d im n (h_pad + d.stride_h) from rfl]
      rw [ih (h_pad + d.stride_h)]
      rw [flatMap_range_succ_left]
      congr 1
      · exact congrArg (fun z => im2colNHWCcols d im z (outWn d) (-(d.pad_l : ℤ)))
          (by norm_num)
      · exact congrArg _ (funext fun oy =>
          congrArg (fun z => im2colNHWCcols d im z (outWn d) (-(d.pad_l : ℤ)))
            (by push_cast; ring))

theorem nhwcTapList_length (d : Desc) (im : Buf) (ih iw : ℤ) :
    (nhwcTapList d im ih iw).length = d.channels := by
  rw [nhwcTapList]
  split_ifs
  · simp [chunkAt]
  · simp

theorem im2colNHWC_flatten_eq {d : Desc} (v : Valid d) (im : Buf) :
    (im2colNHWCrows d im (outHn d) (-(d.pad_t : ℤ))).flatten =
      (List.range (outHn d)).flatMap fun (oy : ℕ) =>
        (List.range (outWn d)).flatMap fun (ox : ℕ) =>
          (List.range d.kernel_h).flatMap fun (kr : ℕ) =>
            (List.range d.kernel_w).flatMap fun (kc : ℕ) =>
              nhwcTapList d im
                (-(d.pad_t : ℤ) + (oy : ℤ) * d.stride_h + (kr : ℤ) * d.dilation_h)
                (-(d.pad_l : ℤ) + (ox : ℤ) * d.stride_w + (kc : ℤ) * d.dilation_w) := by
  rw [im2colNHWCrows_eq, flatten_flatMap]
  refine congrArg (List.range (outHn d)).flatMap (funext fun oy => ?_)
  rw [im2colNHWCcols_eq, flatten_flatMap]
  refine congrArg (List.range (outWn d)).flatMap (funext fun ox => ?_)
  rw [im2colNHWCtaps_eq v, flatten_flatMap]
  refine congrArg (List.range d.kernel_h).flatMap (funext fun kr => ?_)
  rw [flatten_map]

theorem im2colNHWC_flatten_length {d : Desc} (v : Valid d) (im : Buf) :
    (im2colNHWCrows d im (outHn d) (-(d.pad_t : ℤ))).flatten.length =
      outHn d * (outWn d * (d.kernel_h * (d.kernel_w * d.channels))) := by
  rw [im2colNHWC_flatten_eq v im]
  refine length_flatMap_const _ _ ?_
  intro oy hoy
  refine length_flatMap_const _ _ ?_
  intro ox hox
  refine length_flatMap_const _ _ ?_
  intro kr hkr
  refine length_flatMap_const _ _ ?_
  intro kc hkc
  exact nhwcTapList_length d im _ _

theorem im2colNHWC_value {d : Desc} (v : Valid d) (im col : Buf)
    {oy ox kr kc q : ℕ} (hoy : oy < outHn d) (hox : ox < outWn d)
    (hkr : kr < d.kernel_h) (hkc : kc < d.kernel_w) (hq : q < d.channels) :
    im2colNHWC d im col
      (((((oy * outWn d + ox) * d.kernel_h + kr) * d.kernel_w + kc) * d.channels + q : ℕ) : ℤ) =
      (nhwcTapList d im
        (-(d.pad_t : ℤ) + (oy : ℤ) * d.stride_h + (kr : ℤ) * d.dilation_h)
        (-(d.pad_l : ℤ) + (ox : ℤ) * d.stride_w + (kc : ℤ) * d.dilation_w)).getD q 0 := by
  have hW := writesInterval_writeRun (im2colNHWCrows d im (outHn d) (-(d.pad_t : ℤ))).flatten
  have hPlt : (((oy * outWn d + ox) * d.kernel_h + kr) * d.kernel_w + kc) * d.channels + q <
      (im2colNHWCrows d im (outHn d) (-(d.pad_t : ℤ))).flatten.length := by
    rw [im2colNHWC_flatten_length v im]
    exact lt_of_lt_of_eq (flat_lt (flat_lt (flat_lt (flat_lt hoy hox) hkr) hkc) hq) (by ring)
  have hv := hW.value col _ hPlt
  rw [zero_add] at hv
  refine Eq.trans hv ?_
  rw [im2colNHWC_flatten_eq v im]
  rw [show (((oy * outWn d + ox) * d.kernel_h + kr) * d.kernel_w + kc) * d.channels + q =
    oy * (outWn d * (d.kernel_h * (d.kernel_w * d.channels))) +
      (((ox * d.kernel_h + kr) * d.kernel_w + kc) * d.channels + q) by ring]
  rw [getD_flatMap_range 0 _ (fun k hk =>
    length_flatMap_const _ _ (fun k2 hk2 =>
      length_flatMap_const _ _ (fun k3 hk3 =>
        length_flatMap_const _ _ (fun k4 hk4 => nhwcTapList_length d im _ _))))
    hoy (lt_of_lt_of_eq (flat_lt (flat_lt (flat_lt hox hkr) hkc) hq) (by ring))]
  beta_reduce
  rw [show ((ox * d.kernel_h + kr) * d.kernel_w + kc) * d.channels + q =
    ox * (d.kernel_h * (d.kernel_w * d.channels)) +
      ((kr * d.kernel_w + kc) * d.channels + q) by ring]
  rw [getD_flatMap_range 0 _ (fun k hk =>
    length_flatMap_const _ _ (fun k2 hk2 =>
      length_flatMap_const _ _ (fun k3 hk3 => nhwcTapList_length d im _ _)))
    hox (lt_of_lt_of_eq (flat_lt (flat_lt hkr hkc) hq) (by ring))]
  beta_reduce
  rw [show (kr * d.kernel_w + kc) * d.channels + q =
    kr * (d.kernel_w * d.channels) + (kc * d.channels + q) by ring]
  rw [getD_flatMap_range 0 _ (fun k hk =>
    length_flatMap_const _ _ (fun k2 hk2 => nhwcTapList_length d im _ _))
    hkr (flat_lt hkc hq)]
  beta_reduce
  rw [getD_flatMap_range 0 _ (fun k hk => nhwcTapList_length d im _ _) hkc hq]

/-- C8: in NHWC layout the forward transform writes, for each output
position and kernel tap, one contiguous run of exactly `channels` column
values: the input's channel run at the mapped coordinate
(input_row = output_row*stride_h - pad_t + kernel_row*dilation_h,
input_col = output_col*stride_w - pad_l + kernel_col*dilation_w) when that
coordinate is in range, and all zeros when it is out of range. -/
theorem c8_im2col_nhwc_chunk_semantics {d : Desc} (v : Valid d) (im col : Buf)
    {oy ox kr kc q : ℕ} (hoy : oy < outHn d) (hox : ox < outWn d)
    (hkr : kr < d.kernel_h) (hkc : kc < d.kernel_w) (hq : q < d.channels) :
    im2colNHWC d im col
      (((((oy * outWn d + ox) * d.kernel_h + kr) * d.kernel_w + kc) * d.channels + q : ℕ) : ℤ) =
      if 0 ≤ (oy : ℤ) * d.stride_h - d.pad_t + (kr : ℤ) * d.dilation_h ∧
          (oy : ℤ) * d.stride_h - d.pad_t + (kr : ℤ) * d.dilation_h < d.height ∧
          0 ≤ (ox : ℤ) * d.stride_w - d.pad_l + (kc : ℤ) * d.dilation_w ∧
          (ox : ℤ) * d.stride_w - d.pad_l + (kc : ℤ) * d.dilation_w < d.width then
        im ((((oy : ℤ) * d.stride_h - d.pad_t + (kr : ℤ) * d.dilation_h) * d.width +
          ((ox : ℤ) * d.stride_w - d.pad_l + (kc : ℤ) * d.dilation_w)) * d.channels + q)
      else 0 := by
  rw [im2colNHWC_value v im col hoy hox hkr hkc hq]
  rw [show -(d.pad_t : ℤ) + (oy : ℤ) * d.stride_h + (kr : ℤ) * d.dilation_h =
    (oy : ℤ) * d.stride_h - d.pad_t + (kr : ℤ) * d.dilation_h by ring]
  rw [show -(d.pad_l : ℤ) + (ox : ℤ) * d.stride_w + (kc : ℤ) * d.dilation_w =
    (ox : ℤ) * d.stride_w - d.pad_l + (kc : ℤ) * d.dilation_w by ring]
  rw [nhwcTapList]
  split_ifs with h
  · exact chunkAt_getD im _ hq
  · exact getD_replicate 0 0 hq

theorem c8_witness :
    im2colNHWC d0 S0 zB
      ((((0 * outWn d0 + 0) * d0.kernel_h + 0) * d0.kernel_w + 0) * d0.channels + 0 : ℕ) = 0 := by
  rw [@c8_im2col_nhwc_chunk_semantics d0 d0_valid S0 zB 0 0 0 0 0
    (by decide) (by decide) (by decide) (by decide) (by decide)]
  norm_num [S0, d0]

theorem nhwcTapPairs_eq {d : Desc} (v : Valid d) (h_pad w_pad : ℤ) :
    ((stepList h_pad (h_pad + dkernelH d) d.dilation_h).flatMap fun (ih : ℤ) =>
      (stepList w_pad (w_pad + dkernelW d) d.dilation_w).map fun (iw : ℤ) => (ih, iw)) =
      (List.range (d.kernel_h * d.kernel_w)).map fun (r : ℕ) =>
        ((h_pad + ((r / d.kernel_w : ℕ) : ℤ) * d.dilation_h),
         (w_pad + ((r % d.kernel_w : ℕ) : ℤ) * d.dilation_w)) := by
  rw [stepList_dkernelH v, stepList_dkernelW v, flatMap_map']
  refine Eq.trans (congrArg (List.range d.kernel_h).flatMap (funext fun kr => ?_))
    (range_mul_flatMap d.kernel_h d.kernel_w fun kr kc =>
      ((h_pad + (kr : ℤ) * d.dilation_h), (w_pad + (kc : ℤ) * d.dilation_w)))
  rw [List.map_map]
  rfl

theorem nhwcTapFold_eq {d : Desc} (v : Valid d) (h_pad w_pad cur : ℤ) :
    (((stepList h_pad (h_pad + dkernelH d) d.dilation_h).flatMap fun (ih : ℤ) =>
        (stepList w_pad (w_pad + dkernelW d) d.dilation_w).map fun (iw : ℤ) => (ih, iw)).foldl
      (fun st (t : ℤ × ℤ) => (st.1 ++ col2imNHWCtapOps d st.2 t.1 t.2, st.2 + 1))
      (([], cur) : List (ℤ × ℤ) × ℤ)) =
    (nhwcColBlk d h_pad w_pad cur, cur + ((d.kernel_h * d.kernel_w : ℕ) : ℤ) * 1) := by
  rw [nhwcTapPairs_eq v, List.foldl_map]
  exact foldl_emit (fun r c => (col2imNHWCtapOps d c
      (h_pad + ((r / d.kernel_w : ℕ) : ℤ) * d.dilation_h)
      (w_pad + ((r % d.kernel_w : ℕ) : ℤ) * d.dilation_w), c + 1)) 1
    (fun _ _ => rfl) (d.kernel_h * d.kernel_w) [] cur

theorem col2imNHWCcols_eq2 {d : Desc} (v : Valid d) :
    ∀ (n : ℕ) (h_pad w_pad cur : ℤ),
      col2imNHWCcols d n h_pad w_pad cur =
        (nhwcColsOps d n h_pad w_pad cur,
         cur + (n : ℤ) * ((d.kernel_h * d.kernel_w : ℕ) : ℤ)) := by
  intro n
  induction n with
  | zero =>
      intro h_pad w_pad cur
      simp [col2imNHWCcols, nhwcColsOps]
  | succ n ih =>
      intro h_pad w_pad cur
      simp only [col2imNHWCcols]
      rw [nhwcTapFold_eq v, ih h_pad (w_pad + d.stride_w)]
      refine Prod.ext ?_ ?_
      · show nhwcColBlk d h_pad w_pad cur ++
          nhwcColsOps d n h_pad (w_pad + d.stride_w)
            (cur + ((d.kernel_h * d.kernel_w : ℕ) : ℤ) * 1) =
          nhwcColsOps d (n + 1) h_pad w_pad cur
        conv_rhs => rw [nhwcColsOps]
        rw [flatMap_range_succ_left]
        congr 1
        · beta_reduce
          rw [show w_pad + ((0 : ℕ) : ℤ) * d.stride_w = w_pad by norm_num]
          rw [show cur + ((0 : ℕ) : ℤ) * ((d.kernel_h * d.kernel_w : ℕ) : ℤ) = cur by norm_num]
        · rw [nhwcColsOps]
          refine congrArg _ (funext fun ox => ?_)
          beta_reduce
          rw [show w_pad + (d.stride_w : ℤ) + (ox : ℤ) * d.stride_w =
            w_pad + ((ox + 1 : ℕ) : ℤ) * d.stride_w by push_cast; ring]
          rw [show cur + ((d.kernel_h * d.kernel_w : ℕ) : ℤ) * 1 +
              (ox : ℤ) * ((d.kernel_h * d.kernel_w : ℕ) : ℤ) =
            cur + ((ox + 1 : ℕ) : ℤ) * ((d.kernel_h * d.kernel_w : ℕ) : ℤ) by push_cast; ring]
      · show cur + ((d.kernel_h * d.kernel_w : ℕ) : ℤ) * 1 +
          (n : ℤ) * ((d.kernel_h * d.kernel_w : ℕ) : ℤ) =
          cur + ((n + 1 : ℕ) : ℤ) * ((d.kernel_h * d.kernel_w : ℕ) : ℤ)
        push_cast
        ring

theorem col2imNHWCrows_eq2 {d : Desc} (v : Valid d) :
    ∀ (n : ℕ) (h_pad cur : ℤ),
      col2imNHWCrows d n h_pad cur =
        (nhwcRowsOps d n h_pad cur,
         cur + (n : ℤ) * (((outWn d : ℕ) : ℤ) * ((d.kernel_h * d.kernel_w : ℕ) : ℤ))) := by
  intro n
  induction n with
  | zero =>
      intro h_pad cur
      simp [col2imNHWCrows, nhwcRowsOps]
  | succ n ih =>
      intro h_pad cur
      simp only [col2imNHWCrows]
      rw [col2imNHWCcols_eq2 v, ih (h_pad + d.stride_h)]
      refine Prod.ext ?_ ?_
      · show nhwcColsOps d (outWn d) h_pad (-(d.pad_l : ℤ)) cur ++
          nhwcRowsOps d n (h_pad + d.stride_h)
            (cur + ((outWn d : ℕ) : ℤ) * ((d.kernel_h * d.kernel_w : ℕ) : ℤ)) =
          nhwcRowsOps d (n + 1) h_pad cur
        conv_rhs => rw [nhwcRowsOps]
        rw [flatMap_range_succ_left]
        congr 1
        · beta_reduce
          rw [show h_pad + ((0 : ℕ) : ℤ) * d.stride_h = h_pad by norm_num]
          rw [show cur + ((0 : ℕ) : ℤ) *
            (((outWn d : ℕ) : ℤ) * ((d.kernel_h * d.kernel_w : ℕ) : ℤ)) = cur by norm_num]
        · rw [nhwcRowsOps]
          refine congrArg _ (funext fun oy => ?_)
          beta_reduce
          rw [show h_pad + (d.stride_h : ℤ) + (oy : ℤ) * d.stride_h =
            h_pad + ((oy + 1 : ℕ) : ℤ) * d.stride_h by push_cast; ring]
          rw [show cur + ((outWn d : ℕ) : ℤ) * ((d.kernel_h * d.kernel_w : ℕ) : ℤ) +
              (oy : ℤ) * (((outWn d : ℕ) : ℤ) * ((d.kernel_h * d.kernel_w : ℕ) : ℤ)) =
            cur + ((oy + 1 : ℕ) : ℤ) *
              (((outWn d : ℕ) : ℤ) * ((d.kernel_h * d.kernel_w : ℕ) : ℤ)) by push_cast; ring]
      · show cur + ((outWn d : ℕ) : ℤ) * ((d.kernel_h * d.kernel_w : ℕ) : ℤ) +
          (n : ℤ) * (((outWn d : ℕ) : ℤ) * ((d.kernel_h * d.kernel_w : ℕ) : ℤ)) =
          cur + ((n + 1 : ℕ) : ℤ) *
            (((outWn d : ℕ) : ℤ) * ((d.kernel_h * d.kernel_w : ℕ) : ℤ))
        push_cast
        ring

theorem nhwcRowsOps_mem {d : Desc} (e : ℤ × ℤ)
    (he : e ∈ nhwcRowsOps d (outHn d) (-(d.pad_t : ℤ)) 0) :
    ∃ oy ox r q : ℕ, oy < outHn d ∧ ox < outWn d ∧ r < d.kernel_h * d.kernel_w ∧
      q < d.channels ∧
      (0 ≤ -(d.pad_t : ℤ) + (oy : ℤ) * d.stride_h + ((r / d.kernel_w : ℕ) : ℤ) * d.dilation_h ∧
       -(d.pad_t : ℤ) + (oy : ℤ) * d.stride_h + ((r / d.kernel_w : ℕ) : ℤ) * d.dilation_h <
         d.height ∧
       0 ≤ -(d.pad_l : ℤ) + (ox : ℤ) * d.stride_w + ((r % d.kernel_w : ℕ) : ℤ) * d.dilation_w ∧
       -(d.pad_l : ℤ) + (ox : ℤ) * d.stride_w + ((r % d.kernel_w : ℕ) : ℤ) * d.dilation_w <
         d.width) ∧
      e.1 = ((((oy * outWn d + ox) * (d.kernel_h * d.kernel_w) + r) * d.channels + q : ℕ) : ℤ) := by
  rw [nhwcRowsOps] at he
  obtain ⟨oy, hoy, he⟩ := List.mem_flatMap.mp he
  rw [nhwcColsOps] at he
  obtain ⟨ox, hox, he⟩ := List.mem_flatMap.mp he
  rw [nhwcColBlk] at he
  obtain ⟨r, hr, he⟩ := List.mem_flatMap.mp he
  rw [col2imNHWCtapOps] at he
  by_cases hcond :
      0 ≤ -(d.pad_t : ℤ) + (oy : ℤ) * d.stride_h + ((r / d.kernel_w : ℕ) : ℤ) * d.dilation_h ∧
      -(d.pad_t : ℤ) + (oy : ℤ) * d.stride_h + ((r / d.kernel_w : ℕ) : ℤ) * d.dilation_h <
        d.height ∧
      0 ≤ -(d.pad_l : ℤ) + (ox : ℤ) * d.stride_w + ((r % d.kernel_w : ℕ) : ℤ) * d.dilation_w ∧
      -(d.pad_l : ℤ) + (ox : ℤ) * d.stride_w + ((r % d.kernel_w : ℕ) : ℤ) * d.dilation_w <
        d.width
  · rw [if_pos hcond] at he
    obtain ⟨q, hq, rfl⟩ := List.mem_map.mp he
    exact ⟨oy, ox, r, q, List.mem_range.mp hoy, List.mem_range.mp hox,
      List.mem_range.mp hr, List.mem_range.mp hq, hcond, by push_cast; ring⟩
  · rw [if_neg hcond] at he
    exact absurd he (List.not_mem_nil _)

theorem im2colNCHW_value {d : Desc} (v : Valid d) (hF : Fits d) (im col : Buf) {k y x : ℕ}
    (hk : k < d.channels * d.kernel_h * d.kernel_w) (hy : y < outHn d) (hx : x < outWn d) :
    im2colNCHW d im col (((k * outHn d + y) * outWn d + x : ℕ) : ℤ) =
      im2colVal d im k y x := by
  rw [im2colNCHW]
  split_ifs with h1 h2
  · rw [im2colFast_base_eq v h1 im col _]
    exact im2colNCHWbase_value d im col hk hy hx
  · rw [im2colPad_base_eq v hF im col _]
    exact im2colNCHWbase_value d im col hk hy hx
  · exact im2colNCHWbase_value d im col hk hy hx

theorem col2imNCHW_char {d : Desc} (v : Valid d) (hF : Fits d) (col im : Buf) (j : ℤ) :
    col2imNCHW d col im j =
      zeroFill im (d.height * d.width * d.channels) j + col2imAcc d col j := by
  rw [col2imNCHW]
  split_ifs with h1 h2
  · exact col2imNCHWfast_char v h1 col im j
  · exact col2imNCHWpad_char v hF col im j
  · exact col2imNCHWbase_char d col im j

theorem col2imAcc_store_irrelevant {d : Desc} (col : Buf) {k y x : ℕ}
    (hy : y < outHn d) (hx : x < outWn d)
    (hnone : colTarget d k y x = none) (w : ℚ) (j : ℤ) :
    col2imAcc d (store col (((k * outHn d + y) * outWn d + x : ℕ) : ℤ) w) j =
      col2imAcc d col j := by
  rw [col2imAcc, col2imAcc]
  refine congrArg List.sum (List.map_congr_left ?_)
  intro k' hk'
  beta_reduce
  refine congrArg List.sum (List.map_congr_left ?_)
  intro y' hy'
  beta_reduce
  refine congrArg List.sum (List.map_congr_left ?_)
  intro x' hx'
  beta_reduce
  by_cases hct : colTarget d k' y' x' = some j
  · rw [if_pos hct, if_pos hct]
    have hx'n := List.mem_range.mp hx'
    have hy'n := List.mem_range.mp hy'
    have hne : (((k' * outHn d + y') * outWn d + x' : ℕ) : ℤ) ≠
        (((k * outHn d + y) * outWn d + x : ℕ) : ℤ) := by
      intro heq
      have heqn : (k' * outHn d + y') * outWn d + x' = (k * outHn d + y) * outWn d + x := by
        exact_mod_cast heq
      have ex : x' = x := by
        have h1 : ((k' * outHn d + y') * outWn d + x') % outWn d =
            ((k * outHn d + y) * outWn d + x) % outWn d := by rw [heqn]
        rw [encode_mod hx'n, encode_mod hx] at h1
        exact h1
      have hdiv : k' * outHn d + y' = k * outHn d + y := by
        have h1 : ((k' * outHn d + y') * outWn d + x') / outWn d =
            ((k * outHn d + y) * outWn d + x) / outWn d := by rw [heqn]
        rw [encode_div hx'n, encode_div hx] at h1
        exact h1
      have ey : y' = y := by
        have h1 : (k' * outHn d + y') % outHn d = (k * outHn d + y) % outHn d := by rw [hdiv]
        rw [encode_mod hy'n, encode_mod hy] at h1
        exact h1
      have ek : k' = k := by
        have h1 : (k' * outHn d + y') / outHn d = (k * outHn d + y) / outHn d := by rw [hdiv]
        rw [encode_div hy'n, encode_div hy] at h1
        exact h1
      rw [ek, ey, ex, hnone] at hct
      exact absurd hct (by simp)
    rw [store]
    rw [Function.update_noteq hne]
  · rw [if_neg hct, if_neg hct]

theorem col2imNHWC_store_irrelevant {d : Desc} (v : Valid d) (col im : Buf)
    {oy0 ox0 r0 q0 : ℕ} (hoy0 : oy0 < outHn d) (hox0 : ox0 < outWn d)
    (hr0 : r0 < d.kernel_h * d.kernel_w) (hq0 : q0 < d.channels)
    (hout : ¬ (0 ≤ -(d.pad_t : ℤ) + (oy0 : ℤ) * d.stride_h +
        ((r0 / d.kernel_w : ℕ) : ℤ) * d.dilation_h ∧
      -(d.pad_t : ℤ) + (oy0 : ℤ) * d.stride_h +
        ((r0 / d.kernel_w : ℕ) : ℤ) * d.dilation_h < d.height ∧
      0 ≤ -(d.pad_l : ℤ) + (ox0 : ℤ) * d.stride_w +
        ((r0 % d.kernel_w : ℕ) : ℤ) * d.dilation_w ∧
      -(d.pad_l : ℤ) + (ox0 : ℤ) * d.stride_w +
        ((r0 % d.kernel_w : ℕ) : ℤ) * d.dilation_w < d.width))
    (w : ℚ) (j : ℤ) :
    col2imNHWC d (store col
      ((((oy0 * outWn d + ox0) * (d.kernel_h * d.kernel_w) + r0) * d.channels + q0 : ℕ) : ℤ) w)
      im j = col2imNHWC d col im j := by
  rw [show col2imNHWC = fun (d : Desc) (col im : Buf) =>
    applyAdds (zeroFill im (d.height * d.width * d.channels))
      ((col2imNHWCrows d (outHn d) (-(d.pad_t : ℤ)) 0).1) col from rfl]
  beta_reduce
  rw [applyAdds_eq, applyAdds_eq]
  congr 1
  refine congrArg List.sum (List.map_congr_left ?_)
  intro e hee
  beta_reduce
  have hmem : e ∈ (col2imNHWCrows d (outHn d) (-(d.pad_t : ℤ)) 0).1 :=
    List.mem_of_mem_filter hee
  rw [col2imNHWCrows_eq2 v] at hmem
  obtain ⟨oy, ox, r, q, hoy, hox, hr, hq, hcond, hfst⟩ := nhwcRowsOps_mem e hmem
  rw [hfst, store]
  refine Function.update_noteq ?_ _ _
  intro heq
  have heqn : ((oy * outWn d + ox) * (d.kernel_h * d.kernel_w) + r) * d.channels + q =
      ((oy0 * outWn d + ox0) * (d.kernel_h * d.kernel_w) + r0) * d.channels + q0 := by
    exact_mod_cast heq
  have hT : (oy * outWn d + ox) * (d.kernel_h * d.kernel_w) + r =
      (oy0 * outWn d + ox0) * (d.kernel_h * d.kernel_w) + r0 := by
    have h1 := congrArg (fun z => z / d.channels) heqn
    simpa [encode_div hq, encode_div hq0] using h1
  have hrr : r = r0 := by
    have h1 := congrArg (fun z => z % (d.kernel_h * d.kernel_w)) hT
    simpa [encode_mod hr, encode_mod hr0] using h1
  have hOO : oy * outWn d + ox = oy0 * outWn d + ox0 := by
    have h1 := congrArg (fun z => z / (d.kernel_h * d.kernel_w)) hT
    simpa [encode_div hr, encode_div hr0] using h1
  have hxx : ox = ox0 := by
    have h1 := congrArg (fun z => z % outWn d) hOO
    simpa [encode_mod hox, encode_mod hox0] using h1
  have hyy : oy = oy0 := by
    have h1 := congrArg (fun z => z / outWn d) hOO
    simpa [encode_div hox, encode_div hox0] using h1
  rw [hyy, hxx, hrr] at hcond
  exact hout hcond

/-- C6: with padding, a column entry whose mapped coordinate
(input_row = output_row*stride_h - pad_t + kernel_row*dilation_h,
input_col = output_col*stride_w - pad_l + kernel_col*dilation_w) falls
outside the image is written as exactly zero by the forward transform, and
is never added into the destination by the inverse transform — overwriting
such an entry cannot change any inverse output — in both NCHW and NHWC
layouts. -/
theorem c6_padding_region_semantics {d : Desc} (v : Valid d) (hF : Fits d)
    (hpad : 0 < d.pad_t + d.pad_b + d.pad_l + d.pad_r) (im col : Buf) :
    (∀ c kr kc y x : ℕ, c < d.channels → kr < d.kernel_h → kc < d.kernel_w →
      y < outHn d → x < outWn d →
      ¬ (0 ≤ (y : ℤ) * d.stride_h - d.pad_t + (kr : ℤ) * d.dilation_h ∧
          (y : ℤ) * d.stride_h - d.pad_t + (kr : ℤ) * d.dilation_h < d.height ∧
          0 ≤ (x : ℤ) * d.stride_w - d.pad_l + (kc : ℤ) * d.dilation_w ∧
          (x : ℤ) * d.stride_w - d.pad_l + (kc : ℤ) * d.dilation_w < d.width) →
      im2colNCHW d im col
        (((((c * d.kernel_h + kr) * d.kernel_w + kc) * outHn d + y) * outWn d + x : ℕ) : ℤ)
        = 0) ∧
    (∀ c kr kc y x : ℕ, c < d.channels → kr < d.kernel_h → kc < d.kernel_w →
      y < outHn d → x < outWn d →
      ¬ (0 ≤ (y : ℤ) * d.stride_h - d.pad_t + (kr : ℤ) * d.dilation_h ∧
          (y : ℤ) * d.stride_h - d.pad_t + (kr : ℤ) * d.dilation_h < d.height ∧
          0 ≤ (x : ℤ) * d.stride_w - d.pad_l + (kc : ℤ) * d.dilation_w ∧
          (x : ℤ) * d.stride_w - d.pad_l + (kc : ℤ) * d.dilation_w < d.width) →
      ∀ (w : ℚ) (j : ℤ),
        col2imNCHW d (store col
          (((((c * d.kernel_h + kr) * d.kernel_w + kc) * outHn d + y) * outWn d + x : ℕ) : ℤ)
          w) im j = col2imNCHW d col im j) ∧
    (∀ oy ox kr kc q : ℕ, oy < outHn d → ox < outWn d → kr < d.kernel_h → kc < d.kernel_w →
      q < d.channels →
      ¬ (0 ≤ (oy : ℤ) * d.stride_h - d.pad_t + (kr : ℤ) * d.dilation_h ∧
          (oy : ℤ) * d.stride_h - d.pad_t + (kr : ℤ) * d.dilation_h < d.height ∧
          0 ≤ (ox : ℤ) * d.stride_w - d.pad_l + (kc : ℤ) * d.dilation_w ∧
          (ox : ℤ) * d.stride_w - d.pad_l + (kc : ℤ) * d.dilation_w < d.width) →
      im2colNHWC d im col
        (((((oy * outWn d + ox) * d.kernel_h + kr) * d.kernel_w + kc) * d.channels + q : ℕ) : ℤ)
        = 0) ∧
    (∀ oy ox kr kc q : ℕ, oy < outHn d → ox < outWn d → kr < d.kernel_h → kc < d.kernel_w →
      q < d.channels →
      ¬ (0 ≤ (oy : ℤ) * d.stride_h - d.pad_t + (kr : ℤ) * d.dilation_h ∧
          (oy : ℤ) * d.stride_h - d.pad_t + (kr : ℤ) * d.dilation_h < d.height ∧
          0 ≤ (ox : ℤ) * d.stride_w - d.pad_l + (kc : ℤ) * d.dilation_w ∧
          (ox : ℤ) * d.stride_w - d.pad_l + (kc : ℤ) * d.dilation_w < d.width) →
      ∀ (w : ℚ) (j : ℤ),
        col2imNHWC d (store col
          (((((oy * outWn d + ox) * d.kernel_h + kr) * d.kernel_w + kc) * d.channels + q : ℕ)
            : ℤ) w) im j = col2imNHWC d col im j) := by
  refine ⟨?_, ?_, ?_, ?_⟩
  · intro c kr kc y x hc hkr hkc hy hx hcond
    rw [im2colNCHW_value v hF im col (flat_lt (flat_lt hc hkr) hkc) hy hx]
    unfold im2colVal
    rw [colTarget_decode d hkr hkc y x, if_neg hcond]
  · intro c kr kc y x hc hkr hkc hy hx hcond w j
    have hnone : colTarget d ((c * d.kernel_h + kr) * d.kernel_w + kc) y x = none := by
      rw [colTarget_decode d hkr hkc y x, if_neg hcond]
    rw [col2imNCHW_char v hF _ im j, col2imNCHW_char v hF col im j]
    congr 1
    exact col2imAcc_store_irrelevant col hy hx hnone w j
  · intro oy ox kr kc q hoy hox hkr hkc hq hcond
    rw [im2colNHWC_value v im col hoy hox hkr hkc hq]
    rw [show -(d.pad_t : ℤ) + (oy : ℤ) * d.stride_h + (kr : ℤ) * d.dilation_h =
      (oy : ℤ) * d.stride_h - d.pad_t + (kr : ℤ) * d.dilation_h by ring]
    rw [show -(d.pad_l : ℤ) + (ox : ℤ) * d.stride_w + (kc : ℤ) * d.dilation_w =
      (ox : ℤ) * d.stride_w - d.pad_l + (kc : ℤ) * d.dilation_w by ring]
    rw [nhwcTapList, if_neg hcond]
    exact getD_replicate 0 0 hq
  · intro oy ox kr kc q hoy hox hkr hkc hq hcond w j
    rw [show (((oy * outWn d + ox) * d.kernel_h + kr) * d.kernel_w + kc) * d.channels + q =
      ((oy * outWn d + ox) * (d.kernel_h * d.kernel_w) + (kr * d.kernel_w + kc)) *
        d.channels + q by ring]
    refine col2imNHWC_store_irrelevant v col im hoy hox (flat_lt hkr hkc) hq ?_ w j
    rw [encode_div hkc, encode_mod hkc]
    rw [show -(d.pad_t : ℤ) + (oy : ℤ) * d.stride_h + (kr : ℤ) * d.dilation_h =
      (oy : ℤ) * d.stride_h - d.pad_t + (kr : ℤ) * d.dilation_h by ring]
    rw [show -(d.pad_l : ℤ) + (ox : ℤ) * d.stride_w + (kc : ℤ) * d.dilation_w =
      (ox : ℤ) * d.stride_w - d.pad_l + (kc : ℤ) * d.dilation_w by ring]
    exact hcond

theorem c6_witness :
    im2colNCHW d2 S0 zB
      (((((0 * d2.kernel_h + 0) * d2.kernel_w + 0) * outHn d2 + 0) * outWn d2 + 0 : ℕ) : ℤ)
      = 0 ∧
    col2imNCHW d2 (store S0
      (((((0 * d2.kernel_h + 0) * d2.kernel_w + 0) * outHn d2 + 0) * outWn d2 + 0 : ℕ) : ℤ)
      5) zB 0 = col2imNCHW d2 S0 zB 0 ∧
    im2colNHWC d2 S0 zB
      (((((0 * outWn d2 + 0) * d2.kernel_h + 0) * d2.kernel_w + 0) * d2.channels + 0 : ℕ) : ℤ)
      = 0 ∧
    col2imNHWC d2 (store S0
      (((((0 * outWn d2 + 0) * d2.kernel_h + 0) * d2.kernel_w + 0) * d2.channels + 0 : ℕ) : ℤ)
      5) zB 0 = col2imNHWC d2 S0 zB 0 :=
  ⟨(c6_padding_region_semantics d2_valid d2_fits (by decide) S0 zB).1 0 0 0 0 0
      (by decide) (by decide) (by decide) (by decide) (by decide) (by decide),
   (c6_padding_region_semantics d2_valid d2_fits (by decide) zB S0).2.1 0 0 0 0 0
      (by decide) (by decide) (by decide) (by decide) (by decide) (by decide) 5 0,
   (c6_padding_region_semantics d2_valid d2_fits (by decide) S0 zB).2.2.1 0 0 0 0 0
      (by decide) (by decide) (by decide) (by decide) (by decide) (by decide),
   (c6_padding_region_semantics d2_valid d2_fits (by decide) zB S0).2.2.2 0 0 0 0 0
      (by decide) (by decide) (by decide) (by decide) (by decide) (by decide) 5 0⟩

end Caffe2
